import Mathlib

/-!
Verification of the snapshot-testing harness in `scripts/test.py` of the
qatam repository.

The harness is shallowly embedded:

* the filesystem is an inductive tree of named entries (`Entry`, `Entries`);
  a directory listing is the list of its entries, in enumeration order;
* the artifact under test is a parameter `beh : Behavior` mapping a test-case
  path to its execution outcome (exit status, stdout, stderr); wall-clock
  benchmark times are a parameter `ms : Clock` (real time is not modelled);
* console output and the traversal actions of the harness are recorded as a
  list of `Event`s; an uncaught Python exception is modelled as the `err`
  field of the result (`RunOut.err`);
* `subprocess` is assumed to succeed (the built artifact exists), and
  `WindowsError` is read as `OSError`, as on the Windows platform the script
  is written for (`قتام.exe`, `npx.cmd`).

Python's `listdir` takes a snapshot of the directory when called, while
`path.is_dir()` queries the live filesystem; the embedding reproduces this:
each loop iterates over the listing taken at entry, threading the mutated
state alongside.
-/

namespace Qatam

/-- The reserved results-container directory name (`"النتائج"`). -/
def resName : String := "النتائج"

/-- The test-case source extension (`".قتام"`). -/
def caseExt : String := ".قتام"

/-- A filesystem path, as the list of path components from the root. -/
abbrev Path := List String

/-- Index of the last `'.'` in a list of characters, like Python's `rfind`. -/
def rfindDot : List Char → Option Nat
  | [] => none
  | c :: rest =>
    match rfindDot rest with
    | some i => some (i + 1)
    | none => if c = '.' then some 0 else none

/-- `pathlib.Path.suffix` of a single path component: the extension from the
last dot, empty when the dot is leading, trailing or absent. -/
def suffix (s : String) : String :=
  match rfindDot s.data with
  | none => ""
  | some i => if 0 < i ∧ i + 1 < s.data.length then ⟨s.data.drop i⟩ else ""

/-- The character of a decimal digit. -/
def digitChar (d : Nat) : Char := Char.ofNat (48 + d)

/-- Python `str` of a natural number (decimal). -/
def natStr (n : Nat) : String :=
  if n = 0 then "0" else ⟨(Nat.digits 10 n).reverse.map digitChar⟩

/-- Python `str` of an integer (decimal, `-` sign for negatives). -/
def intStr (i : Int) : String :=
  if i < 0 then "-" ++ natStr (-i).toNat else natStr i.toNat

/-- `serialize` (test.py lines 18-19):
`f"returncode: {returncode}\nstdout:\n{stdout}stderr:\n{stderr}"`. -/
def serialize (returncode : Int) (stdout stderr : String) : String :=
  "returncode: " ++ intStr returncode ++ "\nstdout:\n" ++ stdout ++ "stderr:\n" ++ stderr

/-- An execution outcome of the artifact under test. -/
structure Outcome where
  returncode : Int
  stdout : String
  stderr : String

/-- The artifact under test, as a function from the invoked test-case path to
its outcome. Running `sync` and then `run` against the same `Behavior` is
exactly the "artifact behaving identically" hypothesis. -/
abbrev Behavior := Path → Outcome

/-- Wall-clock milliseconds measured around one invocation, per case path. -/
abbrev Clock := Path → Nat

/-- A filesystem entry: a regular file with its text content, or a directory
with its listing (in enumeration order). -/
inductive Entry where
  | file (content : String)
  | dir (entries : List (String × Entry))
  deriving Repr

/-- A directory listing: named entries in enumeration order. -/
abbrev Entries := List (String × Entry)

/-- Look up the entry with the given name. -/
def lookupEntry (es : Entries) (n : String) : Option Entry :=
  match es with
  | [] => none
  | (m, e) :: rest => if m = n then some e else lookupEntry rest n

/-- Remove the entry with the given name (`Path.unlink`; names are unique in
a real directory listing). -/
def removeEntry (es : Entries) (n : String) : Entries :=
  match es with
  | [] => []
  | (m, e) :: rest => if m = n then removeEntry rest n else (m, e) :: removeEntry rest n

/-- Replace the entry with the given name in place, or append a new one. -/
def setEntry (es : Entries) (n : String) (e : Entry) : Entries :=
  match es with
  | [] => [(n, e)]
  | (m, e') :: rest => if m = n then (n, e) :: rest else (m, e') :: setEntry rest n e

/-- Render a path the way the script renders `Path` objects in messages
(`as_posix`-style separator). -/
def pathJoin (p : Path) : String := String.intercalate "/" p

/-- `to_symbol` (test.py lines 61-65). -/
def to_symbol (flag : Bool) : String := if flag then "✓" else "✕"

/-- Observable actions of the harness: recursing into a subdirectory,
invoking the artifact on a case, and the per-case report lines printed by
`sync` and `run` (path, pass/fail, milliseconds), plus the `print(e)` of an
except-clause. -/
inductive Event where
  | recurseE (p : Path)
  | execE (p : Path)
  | syncBench (p : Path) (ms : Nat)
  | runBench (p : Path) (ok : Bool) (ms : Nat)
  | errLine (s : String)
  deriving Repr

/-- `execute` (test.py lines 22-28): invoke the artifact on `p`, serialize the
outcome, and record the benchmark `{path, ms}`. Timing comes from the `ms`
clock parameter; serialization is outside the measured window either way. -/
def execute (beh : Behavior) (ms : Clock) (p : Path) : String × (Path × Nat) :=
  (serialize (beh p).returncode (beh p).stdout (beh p).stderr, (p, ms p))

/-- `clean` (test.py lines 94-103): for each entry of the listing, a directory
named `النتائج` is removed wholesale (`rmtree`), any other directory is cleaned
recursively, files are untouched. Returns the new listing and the recursion
events. -/
def clean (dir : Path) (es : Entries) : Entries × List Event :=
  match es with
  | [] => ([], [])
  | (n, .dir sub) :: rest =>
    if n = resName then clean dir rest
    else
      let c := clean (dir ++ [n]) sub
      let r := clean dir rest
      ((n, .dir c.1) :: r.1, [.recurseE (dir ++ [n])] ++ c.2 ++ r.2)
  | (n, .file cnt) :: rest =>
    let r := clean dir rest
    ((n, .file cnt) :: r.1, r.2)

/-- `get_snapshot_path` (test.py lines 31-37): ensure `dir/النتائج` is a
directory (unlinking a regular file of that name first, creating the directory
if absent) and return the snapshot path `dir/النتائج/{name}.txt` together with
the updated state of `dir`'s listing. -/
def get_snapshot_path (dir : Path) (st : Entries) (name : String) : Path × Entries :=
  (dir ++ [resName, name ++ ".txt"],
   match lookupEntry st resName with
   | some (.dir _) => st
   | some (.file _) => removeEntry st resName ++ [(resName, .dir [])]
   | none => st ++ [(resName, .dir [])])

/-- The file entry at `dir/النتائج/{name}.txt`, if any, in state `st`. -/
def snapFileAt (st : Entries) (name : String) : Option Entry :=
  match lookupEntry st resName with
  | some (.dir l) => lookupEntry l (name ++ ".txt")
  | _ => none

/-- The snapshots written so far into the container being (re)built by one
`sync` loop, as pairs of case name and snapshot text. The loop starts after
`clean`, so the container starts absent (`none`); its first ensured state is
the empty directory. -/
abbrev Snaps := List (String × String)

/-- The container contents as directory entries: `{name}.txt` files. -/
def contToEntries (l : Snaps) : Entries :=
  l.map (fun nc => (nc.1 ++ ".txt", .file nc.2))

/-- Overwrite-or-create a snapshot in the container being built. -/
def setSnap (l : Snaps) (n v : String) : Snaps :=
  match l with
  | [] => [(n, v)]
  | (m, w) :: rest => if m = n then (n, v) :: rest else (m, w) :: setSnap rest n v

/-- Result of `sync`: the new listing of the directory and the events. -/
structure SyncOut where
  fs : Entries
  events : List Event

/-- Weight of a listing for the termination measure of `syncLoop`: counts
nested directories and case-suffixed names. -/
def mlL : Entries → Nat
  | [] => 0
  | (n, .file _) :: rest => (if suffix n = caseExt then 1 else 0) + mlL rest
  | (n, .dir sub) :: rest => (if suffix n = caseExt then 1 else 0) + 1 + mlL sub + mlL rest

theorem mlL_clean_le (dir : Path) (es : Entries) : mlL (clean dir es).1 ≤ mlL es := by
  induction dir, es using clean.induct <;> simp_all [clean, mlL] <;> omega

theorem mlL_cons_ge (n : String) (e : Entry) (rest : Entries) :
    mlL rest ≤ mlL ((n, e) :: rest) := by
  cases e <;> simp [mlL] <;> omega

theorem mlL_cons_case (n : String) (e : Entry) (rest : Entries)
    (h : suffix n = caseExt) : 1 + mlL rest ≤ mlL ((n, e) :: rest) := by
  cases e <;> simp [mlL, h] <;> omega

/-- Size of a listing, for the termination measure of `runLoop`. -/
def szL : Entries → Nat
  | [] => 0
  | (_, .file _) :: rest => 1 + szL rest
  | (_, .dir sub) :: rest => 2 + szL sub + szL rest

theorem szL_cons_lt (n : String) (e : Entry) (rest : Entries) :
    szL rest < szL ((n, e) :: rest) := by
  cases e <;> simp [szL] <;> omega

theorem data_append_txt (n : String) :
    (n ++ ".txt").data = n.data ++ ['.', 't', 'x', 't'] := by
  simp [String.data_append]

theorem rfindDot_append_txt (n : String) :
    rfindDot (n.data ++ ['.', 't', 'x', 't']) = some n.data.length := by
  induction n.data with
  | nil => rfl
  | cons c cs ih => simp [rfindDot, ih]

theorem suffix_append_txt_ne (n : String) : suffix (n ++ ".txt") ≠ caseExt := by
  have h : rfindDot (n ++ ".txt").data = some n.data.length := by
    rw [data_append_txt]; exact rfindDot_append_txt n
  rw [suffix]
  split
  · simp_all
  · rename_i i hi
    rw [h] at hi
    injection hi with hi
    subst hi
    split
    · rw [data_append_txt, List.drop_left]
      decide
    · decide

theorem append_txt_ne_res (n : String) : n ++ ".txt" ≠ resName := by
  intro h
  have h2 := congrArg String.data h
  rw [data_append_txt] at h2
  have h3 := congrArg List.getLast? h2
  rw [List.getLast?_append] at h3
  simp [resName] at h3

theorem mlL_contToEntries (l : Snaps) : mlL (contToEntries l) = 0 := by
  induction l with
  | nil => simp [contToEntries, mlL]
  | cons nc rest ih =>
    simp [contToEntries, mlL, suffix_append_txt_ne nc.1] at *
    exact ih

/-- The body of `sync` (test.py lines 40-58) for one directory, iterating the
listing `todo` taken right after `clean`.  State threaded through the loop:
`cont` is the container being rebuilt (`none` until the first
`get_snapshot_path` call of this loop), `acc` the entries already visited,
`bn` the benches, `evs` the events so far.  For each entry, in source order:
line 48 `if path.is_dir(): sync(path, False)` — the recursion is inlined
(`clean` then the loop, as in lines 41-46 with `should_build = False`); then
line 50 `if path.suffix == ".قتام"` executes the case and writes its snapshot.
A file named `النتائج` whose listing entry has become the freshly created
container directory by visit time *is* recursed into (line 48 checks the live
filesystem): that pass sees only `.txt` files and rewrites nothing (theorem
`sync_container_fixed` below), so `cont` is kept. -/
def syncLoop (beh : Behavior) (ms : Clock) (dir : Path) (todo : Entries)
    (cont : Option Snaps) (acc : Entries) (bn : List (Path × Nat))
    (evs : List Event) : SyncOut :=
  match todo with
  | [] =>
    ⟨(match cont with
      | some l => acc ++ [(resName, .dir (contToEntries l))]
      | none => acc),
     evs ++ bn.map (fun b => .syncBench b.1 b.2)⟩
  | (name, e) :: rest =>
    let step1 : Entries × List Event :=
      match e with
      | .dir sub =>
        let c := clean (dir ++ [name]) sub
        let r := syncLoop beh ms (dir ++ [name]) c.1 none [] [] c.2
        (acc ++ [(name, .dir r.fs)], evs ++ [.recurseE (dir ++ [name])] ++ r.events)
      | .file cnt =>
        match cont with
        | some l =>
          if name = resName then
            let c := clean (dir ++ [name]) (contToEntries l)
            let r := syncLoop beh ms (dir ++ [name]) c.1 none [] [] c.2
            (acc, evs ++ [.recurseE (dir ++ [name])] ++ r.events)
          else (acc ++ [(name, .file cnt)], evs)
        | none => (acc ++ [(name, .file cnt)], evs)
    if suffix name = caseExt then
      let ex := execute beh ms (dir ++ [name])
      let l0 : Snaps := match cont with | some l => l | none => []
      let acc2 : Entries := match cont with | some _ => step1.1 | none => removeEntry step1.1 resName
      syncLoop beh ms dir rest (some (setSnap l0 name ex.1)) acc2 (bn ++ [ex.2])
        (step1.2 ++ [.execE (dir ++ [name])])
    else
      syncLoop beh ms dir rest cont step1.1 bn step1.2
termination_by (mlL todo + (if cont.isSome then 1 else 0), todo.length)
decreasing_by
  all_goals try simp only [Option.isSome_none, Option.isSome_some, if_true, if_false,
    Bool.false_eq_true, Nat.add_zero]
  all_goals
    first
    | (apply Prod.Lex.left
       refine Nat.lt_of_le_of_lt (mlL_clean_le _ _) ?_
       simp only [mlL]
       omega)
    | (apply Prod.Lex.left
       refine Nat.lt_of_le_of_lt (Nat.le_trans (mlL_clean_le _ _)
         (Nat.le_of_eq (mlL_contToEntries _))) ?_
       simp only [mlL]
       omega)
    | (apply Prod.Lex.right'
       · refine Nat.le_trans ?_ (Nat.le_add_right _ _)
         rw [Nat.add_comm]
         exact mlL_cons_case _ _ _ (by assumption)
       · simp)
    | (apply Prod.Lex.right'
       · exact Nat.add_le_add_right (mlL_cons_ge _ _ _) _
       · simp)

/-- `sync` (test.py lines 40-58): clean the tree, then walk the listing,
re-executing every test case and writing its snapshot. (`build` is an
external collaborator and is not modelled.) -/
def sync (beh : Behavior) (ms : Clock) (dir : Path) (es : Entries) : SyncOut :=
  let c := clean dir es
  syncLoop beh ms dir c.1 none [] [] c.2

/-- Result of `run`: the (mutated) listing, the events, and the uncaught
exception (`RuntimeError`) if one escaped. -/
structure RunOut where
  fs : Entries
  events : List Event
  err : Option String

/-- The `RuntimeError` message of test.py lines 80-81. -/
def missingMsg (p : Path) : String :=
  "The snapshot file " ++ pathJoin p ++ " does not exist\nhint: run the sync subcommand first"

/-- The body of `run` (test.py lines 68-91) for one directory, iterating the
listing `todo` taken at entry and threading the live state `st` of the
directory.  Per entry, in source order: line 75
`if path.is_dir() and name != "النتائج": run(path, False)` (a `RuntimeError`
escaping the recursive call propagates — only `WindowsError` is caught); then
line 77 `if path.suffix == ".قتام"`: line 78 calls `get_snapshot_path` (which
creates the container), lines 79-81 raise `RuntimeError` when the snapshot is
missing (aborting the loop and skipping the bench report), otherwise lines
82-86 execute the case and compare against the snapshot text.  A snapshot
path that exists as a directory makes `open` raise an `OSError`, which the
`except WindowsError` clause catches and prints; the loop stops but the
benches collected so far are still reported. -/
def runLoop (beh : Behavior) (ms : Clock) (dir : Path) (todo : Entries)
    (st : Entries) (bn : List (Path × Bool × Nat)) (evs : List Event) : RunOut :=
  match todo with
  | [] => ⟨st, evs ++ bn.map (fun b => .runBench b.1 b.2.1 b.2.2), none⟩
  | (name, e) :: rest =>
    let step1 : Entries × List Event × Option String :=
      match e with
      | .dir sub =>
        if name = resName then (st, evs, none)
        else
          let r := runLoop beh ms (dir ++ [name]) sub sub [] []
          (setEntry st name (.dir r.fs), evs ++ [.recurseE (dir ++ [name])] ++ r.events, r.err)
      | .file _ => (st, evs, none)
    match step1 with
    | (st1, evs1, some m) => ⟨st1, evs1, some m⟩
    | (st1, evs1, none) =>
      if suffix name = caseExt then
        let gp := get_snapshot_path dir st1 name
        match snapFileAt gp.2 name with
        | none => ⟨gp.2, evs1, some (missingMsg gp.1)⟩
        | some (.file snap) =>
          let ex := execute beh ms (dir ++ [name])
          runLoop beh ms dir rest gp.2 (bn ++ [(dir ++ [name], ex.1 == snap, ex.2.2)])
            (evs1 ++ [.execE (dir ++ [name])])
        | some (.dir _) =>
          ⟨gp.2, evs1 ++ [.errLine (pathJoin gp.1)]
            ++ bn.map (fun b => .runBench b.1 b.2.1 b.2.2), none⟩
      else
        runLoop beh ms dir rest st1 bn evs1
termination_by szL todo
decreasing_by
  all_goals first
  | (simp [szL]; omega)
  | exact szL_cons_lt _ _ _

/-- `run` (test.py lines 68-91): walk the listing, comparing each case's fresh
serialized result against its stored snapshot. -/
def run (beh : Behavior) (ms : Clock) (dir : Path) (es : Entries) : RunOut :=
  runLoop beh ms dir es es [] []

/-- `DEFAULT_DIR` (test.py line 10). -/
def DEFAULT_DIR : String := "tests"

/-- The observable outcome of `main` (test.py lines 118-142). -/
inductive CliResult where
  | helpShown
  | unknownSub (s : String)
  | invoked (sub : String) (dir : String)
  | typeErr
  deriving Repr, DecidableEq

/-- The subcommand table keys (test.py lines 106-110). -/
def subcommandNames : List String := ["sync", "run", "clean"]

/-- `main` (test.py lines 118-142).  With no subcommand the help is printed.
With a known subcommand, the optional next argument is the directory
(defaulting to `DEFAULT_DIR`).  With any further argument, line 132 evaluates
`next(next(argvIter))`: the inner `next` yields that argument — a `str`, which
is not an iterator — so the outer `next` raises `TypeError`; only
`StopIteration` is caught, so the `TypeError` escapes uncaught and the
`assert False` on line 133 is unreachable.  The subcommand function is
invoked only in the `invoked` outcome. -/
def main (argv : List String) : CliResult :=
  match argv with
  | [] => .helpShown
  | [_] => .helpShown
  | _ :: subcommand :: rest =>
    if subcommand ∈ subcommandNames then
      match rest with
      | [] => .invoked subcommand DEFAULT_DIR
      | [d] => .invoked subcommand d
      | _ :: _ :: _ => .typeErr
    else .unknownSub subcommand

/-! ### The serializer (claim C1) -/

theorem digitChar_inj_fin :
    ∀ d₁ d₂ : Fin 10, digitChar d₁.val = digitChar d₂.val → d₁ = d₂ := by decide

theorem digitChar_ne_dash : ∀ d : Fin 10, digitChar d.val ≠ '-' := by decide

theorem digitChar_ne_newline : ∀ d : Fin 10, digitChar d.val ≠ '\n' := by decide

theorem string_ext {a b : String} (h : a.data = b.data) : a = b := by
  cases a; cases b; exact congrArg String.mk h

theorem map_digitChar_inj (l₁ l₂ : List Nat) (h₁ : ∀ x ∈ l₁, x < 10)
    (h₂ : ∀ x ∈ l₂, x < 10) (he : l₁.map digitChar = l₂.map digitChar) : l₁ = l₂ := by
  induction l₁ generalizing l₂ with
  | nil => cases l₂ <;> simp_all
  | cons a l ih =>
    cases l₂ with
    | nil => simp_all
    | cons b l' =>
      simp only [List.map_cons, List.cons.injEq] at he
      have ha : a < 10 := h₁ a (by simp)
      have hb : b < 10 := h₂ b (by simp)
      have hab : a = b := congrArg Fin.val (digitChar_inj_fin ⟨a, ha⟩ ⟨b, hb⟩ he.1)
      subst hab
      have hrest := ih l' (fun x hx => h₁ x (List.mem_cons_of_mem _ hx))
        (fun x hx => h₂ x (List.mem_cons_of_mem _ hx)) he.2
      rw [hrest]

theorem natStr_mem_ne (n : Nat) (c : Char) (hc : c ∈ (natStr n).data) :
    c ≠ '-' ∧ c ≠ '\n' := by
  rw [natStr] at hc
  split at hc
  · have : c = '0' := by simpa using hc
    subst this
    exact ⟨by decide, by decide⟩
  · simp only [String.data] at hc
    obtain ⟨d, hd, rfl⟩ := List.mem_map.mp hc
    have hdlt : d < 10 :=
      Nat.digits_lt_base (by norm_num) (List.mem_reverse.mp hd)
    exact ⟨digitChar_ne_dash ⟨d, hdlt⟩, digitChar_ne_newline ⟨d, hdlt⟩⟩

theorem natStr_zero : natStr 0 = "0" := by simp [natStr]

theorem natStr_ne_zero_str (b : Nat) (hb : b ≠ 0) : natStr b ≠ "0" := by
  rw [natStr, if_neg hb]
  intro h
  have hd := congrArg String.data h
  simp only [String.data] at hd
  rcases hrev : (Nat.digits 10 b).reverse with _ | ⟨d, ds⟩
  · rw [hrev] at hd; simp at hd
  · rw [hrev] at hd
    rcases ds with _ | ⟨d', ds'⟩
    · simp only [List.map_cons, List.map_nil] at hd
      have hd0 : digitChar d = '0' := by simpa using hd
      have hdigs : Nat.digits 10 b = [d] := by
        rw [← List.reverse_reverse (Nat.digits 10 b), hrev]
        rfl
      have hdlt : d < 10 := Nat.digits_lt_base (by norm_num) (by rw [hdigs]; simp)
      have hdz : d = 0 := congrArg Fin.val
        (digitChar_inj_fin ⟨d, hdlt⟩ ⟨0, by norm_num⟩ (hd0.trans (by decide)))
      subst hdz
      have h4 := Nat.ofDigits_digits 10 b
      rw [hdigs] at h4
      exact hb (by simpa [Nat.ofDigits] using h4.symm)
    · rw [show (d :: d' :: ds').map digitChar =
        digitChar d :: digitChar d' :: ds'.map digitChar from rfl] at hd
      simp at hd

theorem natStr_inj (a b : Nat) (h : natStr a = natStr b) : a = b := by
  by_cases ha : a = 0 <;> by_cases hb : b = 0
  · omega
  · exact absurd (h.symm.trans (ha ▸ natStr_zero)) (natStr_ne_zero_str b hb)
  · exact absurd (h.trans (hb ▸ natStr_zero)) (natStr_ne_zero_str a ha)
  · rw [natStr, natStr, if_neg ha, if_neg hb] at h
    have hd := congrArg String.data h
    simp only [String.data] at hd
    have hrd := map_digitChar_inj _ _
      (fun x hx => Nat.digits_lt_base (by norm_num) (List.mem_reverse.mp hx))
      (fun x hx => Nat.digits_lt_base (by norm_num) (List.mem_reverse.mp hx)) hd
    have h2 := congrArg List.reverse hrd
    simp only [List.reverse_reverse] at h2
    exact Nat.digits_inj_iff.mp h2

theorem intStr_no_newline (i : Int) : '\n' ∉ (intStr i).data := by
  intro hmem
  rw [intStr] at hmem
  split at hmem
  · rw [String.data_append] at hmem
    rcases List.mem_append.mp hmem with h | h
    · simp at h
    · exact (natStr_mem_ne _ _ h).2 rfl
  · exact (natStr_mem_ne _ _ hmem).2 rfl

theorem intStr_inj (i j : Int) (h : intStr i = intStr j) : i = j := by
  rw [intStr, intStr] at h
  split at h <;> split at h
  · rename_i hi hj
    have hd := congrArg String.data h
    rw [String.data_append, String.data_append] at hd
    have hdd : (natStr (-i).toNat).data = (natStr (-j).toNat).data :=
      List.append_cancel_left hd
    have hn := natStr_inj _ _ (string_ext hdd)
    omega
  · exfalso
    have hd := congrArg String.data h
    rw [String.data_append] at hd
    have hmem : '-' ∈ (natStr j.toNat).data := by
      rw [← hd]
      simp
    exact (natStr_mem_ne _ _ hmem).1 rfl
  · exfalso
    have hd := congrArg String.data h
    rw [String.data_append] at hd
    have hmem : '-' ∈ (natStr i.toNat).data := by
      rw [hd]
      simp
    exact (natStr_mem_ne _ _ hmem).1 rfl
  · rename_i hi hj
    have hn := natStr_inj _ _ h
    omega

theorem split_at_newline {l₁ l₂ t₁ t₂ : List Char} (h₁ : '\n' ∉ l₁) (h₂ : '\n' ∉ l₂)
    (he : l₁ ++ '\n' :: t₁ = l₂ ++ '\n' :: t₂) : l₁ = l₂ ∧ t₁ = t₂ := by
  induction l₁ generalizing l₂ with
  | nil =>
    cases l₂ with
    | nil => simpa using he
    | cons b l' =>
      exfalso
      simp only [List.nil_append, List.cons_append, List.cons.injEq] at he
      exact h₂ (he.1 ▸ List.mem_cons_self b l')
  | cons a l ih =>
    cases l₂ with
    | nil =>
      exfalso
      simp only [List.nil_append, List.cons_append, List.cons.injEq] at he
      exact h₁ (he.1 ▸ List.mem_cons_self a l)
    | cons b l' =>
      simp only [List.cons_append, List.cons.injEq] at he
      obtain ⟨rfl, he2⟩ := he
      have := ih (fun hm => h₁ (List.mem_cons_of_mem a hm))
        (fun hm => h₂ (List.mem_cons_of_mem a hm)) he2
      exact ⟨by rw [this.1], this.2⟩

/-- Claim C1, counterexample: two distinct outcomes — statuses equal, but
stdout/stderr differing by moving the embedded section label `"stderr:\n"`
from one stream to the other — serialize to the same text, because the
serializer places no separator between the stdout payload and the `stderr:`
label. This falsifies "serialize(a) and serialize(b) yield identical text
only if the stdout texts and stderr texts are pairwise identical". -/
theorem c1_counterexample :
    serialize 0 "" "stderr:\n" = serialize 0 "stderr:\n" "" ∧
      ("" : String) ≠ "stderr:\n" :=
  ⟨by decide, by decide⟩

/-- Claim C1 (amended): `serialize` is deterministic (it is a function), and
`serialize a = serialize b` iff the exit statuses are identical and the
concatenations `stdout ++ "stderr:\n" ++ stderr` are identical.  Exit
statuses are still fully recovered; the stdout/stderr boundary is ambiguous
exactly up to the position of the `"stderr:\n"` label in that concatenation. -/
theorem c1_serialize_eq_iff (r₁ r₂ : Int) (o₁ e₁ o₂ e₂ : String) :
    serialize r₁ o₁ e₁ = serialize r₂ o₂ e₂ ↔
      r₁ = r₂ ∧ o₁ ++ "stderr:\n" ++ e₁ = o₂ ++ "stderr:\n" ++ e₂ := by
  constructor
  · intro h
    have hd := congrArg String.data h
    simp only [serialize, String.data_append, List.append_assoc] at hd
    have hd2 := List.append_cancel_left hd
    simp only [List.cons_append] at hd2
    obtain ⟨hint, hrest⟩ := split_at_newline (intStr_no_newline r₁) (intStr_no_newline r₂) hd2
    refine ⟨intStr_inj _ _ (string_ext hint), ?_⟩
    simp only [List.cons.injEq, List.nil_append, true_and] at hrest
    apply string_ext
    simpa only [String.data_append, List.append_assoc, List.cons_append,
      List.nil_append] using hrest
  · rintro ⟨rfl, hoe⟩
    apply string_ext
    have hd := congrArg String.data hoe
    simp only [String.data_append, List.append_assoc] at hd
    simp only [serialize, String.data_append, List.append_assoc]
    rw [hd]

/-! ### Lookup lemmas -/

theorem lookupEntry_append (es es' : Entries) (n : String) :
    lookupEntry (es ++ es') n =
      match lookupEntry es n with
      | some e => some e
      | none => lookupEntry es' n := by
  induction es with
  | nil => simp [lookupEntry]
  | cons p rest ih =>
    obtain ⟨m, e⟩ := p
    by_cases h : m = n <;> simp [lookupEntry, h, ih]

theorem lookupEntry_removeEntry_self (es : Entries) (n : String) :
    lookupEntry (removeEntry es n) n = none := by
  induction es with
  | nil => simp [removeEntry, lookupEntry]
  | cons p rest ih =>
    obtain ⟨m, e⟩ := p
    by_cases h : m = n <;> simp [removeEntry, lookupEntry, h, ih]

theorem lookupEntry_setEntry_self (es : Entries) (n : String) (e : Entry) :
    lookupEntry (setEntry es n e) n = some e := by
  induction es with
  | nil => simp [setEntry, lookupEntry]
  | cons p rest ih =>
    obtain ⟨m, e'⟩ := p
    by_cases h : m = n <;> simp [setEntry, lookupEntry, h, ih]

theorem lookupEntry_setEntry_other (es : Entries) (n m : String) (e : Entry)
    (h : n ≠ m) : lookupEntry (setEntry es n e) m = lookupEntry es m := by
  induction es with
  | nil => simp [setEntry, lookupEntry, h]
  | cons p rest ih =>
    obtain ⟨k, e'⟩ := p
    by_cases hk : k = n
    · subst hk
      simp [setEntry, lookupEntry, h]
    · simp [setEntry, lookupEntry, hk, ih]

/-! ### Claim C7: the snapshot-path mapping -/

/-- The container listing that `get_snapshot_path` leaves in place: an
existing container directory is kept with its contents, anything else
(absent, or a regular file which is unlinked) becomes the empty directory. -/
def ensuredContainer (st : Entries) : Entries :=
  match lookupEntry st resName with
  | some (.dir l) => l
  | _ => []

/-- Claim C7: `get_snapshot_path` returns the path
`dir/النتائج/{name}.txt` — a function of the directory and the case name
alone, reading no file contents — and ensures the results container: an
absent container is created, a regular file named `النتائج` is removed and
replaced by a (fresh, empty) directory, and an existing container directory
is kept with its contents. -/
theorem c7_get_snapshot_path (dir : Path) (st : Entries) (name : String) :
    (get_snapshot_path dir st name).1 = dir ++ [resName, name ++ ".txt"] ∧
    lookupEntry (get_snapshot_path dir st name).2 resName =
      some (.dir (ensuredContainer st)) := by
  refine ⟨rfl, ?_⟩
  rw [get_snapshot_path, ensuredContainer]
  rcases h : lookupEntry st resName with _ | e
  · simp [lookupEntry_append, h, lookupEntry]
  · rcases e with c | l
    · simp [lookupEntry_append, lookupEntry_removeEntry_self, lookupEntry]
    · simpa using h

/-! ### Claim C8: extra positional arguments -/

/-- Claim C8, counterexample: with two positional arguments after the
subcommand, `main` neither prints the usage help nor reports a usage error:
line 132 applies `next` to a string, raising an uncaught `TypeError`
(`CliResult.typeErr`) — the guarding `assert` and its message are never
reached, and no subcommand is invoked. -/
theorem c8_counterexample :
    main ["scripts/test.py", "run", "tests", "extra"] = CliResult.typeErr := by decide

/-- Claim C8 (amended): supplying more than one positional argument after a
known subcommand aborts with an uncaught `TypeError` before the subcommand
function is invoked — so no build, execution, or snapshot I/O happens — but
the usage help text is not printed (the `assert` guard is unreachable). -/
theorem c8_extra_args_type_error (p s d e : String) (rest : List String)
    (h : s ∈ subcommandNames) :
    main (p :: s :: d :: e :: rest) = CliResult.typeErr := by
  rw [main, if_pos h]

/-- Witness for `c8_extra_args_type_error` at a concrete command line. -/
theorem c8_extra_args_type_error_witness :
    main ["test.py", "sync", "tests", "x"] = CliResult.typeErr :=
  c8_extra_args_type_error "test.py" "sync" "tests" "x" [] (by decide)

/-! ### Claim C6: clean -/

/-- No directory named `النتائج` anywhere in the tree (no snapshot state in
the results-directory storage scheme). -/
def resDirFree : Entries → Bool
  | [] => true
  | (_, .file _) :: rest => resDirFree rest
  | (n, .dir sub) :: rest => (n != resName) && resDirFree sub && resDirFree rest

theorem clean_of_resDirFree (dir : Path) (es : Entries) (h : resDirFree es = true) :
    (clean dir es).1 = es := by
  induction dir, es using clean.induct with
  | case1 => simp [clean]
  | case2 d sub rest ih =>
    rw [resDirFree] at h
    simp at h
  | case3 d n sub rest hn ih1 ih2 =>
    rw [resDirFree] at h
    simp only [Bool.and_eq_true] at h
    simp [clean, hn, ih1 h.1.2, ih2 h.2]
  | case4 d n c rest ih =>
    rw [resDirFree] at h
    simp [clean, ih h]

theorem resDirFree_clean (dir : Path) (es : Entries) :
    resDirFree (clean dir es).1 = true := by
  induction dir, es using clean.induct with
  | case1 => simp [clean, resDirFree]
  | case2 d sub rest ih => simpa [clean] using ih
  | case3 d n sub rest hn ih1 ih2 =>
    simp [clean, hn, resDirFree, ih1, ih2]
  | case4 d n c rest ih => simpa [clean, resDirFree] using ih

theorem lookupEntry_clean_file (dir : Path) (es : Entries) (n : String) (c : String)
    (h : lookupEntry es n = some (.file c)) :
    lookupEntry (clean dir es).1 n = some (.file c) := by
  induction dir, es using clean.induct with
  | case1 => simp [lookupEntry] at h
  | case2 d sub rest ih =>
    rw [lookupEntry] at h
    by_cases hn : resName = n
    · simp [hn] at h
    · simp only [hn, if_false] at h
      simp [clean, ih h]
  | case3 d m sub rest hm ih1 ih2 =>
    rw [lookupEntry] at h
    by_cases hn : m = n
    · simp [hn] at h
    · simp only [hn, if_false] at h
      simp [clean, hm, lookupEntry, hn, ih2 h]
  | case4 d m c' rest ih =>
    rw [lookupEntry] at h
    by_cases hn : m = n
    · subst hn
      rw [if_pos rfl] at h
      simp only [Option.some.injEq, Entry.file.injEq] at h
      simp [clean, lookupEntry, h]
    · simp only [hn, if_false] at h
      simp [clean, lookupEntry, hn, ih h]

/-- Claim C6, counterexample: `clean` removes the results container
*wholesale* (`rmtree`), including files inside it that are not snapshots.
Here `tests/النتائج/readme.md` — a regular file that is no recorded
snapshot — is destroyed by clean, falsifying "it has no effect on ... any
file that is not a snapshot". -/
theorem c6_counterexample :
    lookupEntry [(resName, Entry.dir [("readme.md", Entry.file "notes")])] resName =
      some (Entry.dir [("readme.md", Entry.file "notes")]) ∧
    (clean ["tests"] [(resName, Entry.dir [("readme.md", Entry.file "notes")])]).1 = [] := by
  constructor
  · rfl
  · simp [clean, resName]

/-- Claim C6 (amended): `clean` removes exactly the reserved results
containers, wholesale — including any stray non-snapshot files inside them;
entries outside a container are otherwise unaffected (top-level regular
files are preserved verbatim, other directories are cleaned recursively).
On a tree with no container it is a no-op (and raises no error), and it is
idempotent. -/
theorem c6_clean (dir : Path) (es : Entries) :
    (resDirFree es = true → (clean dir es).1 = es) ∧
    (clean dir (clean dir es).1).1 = (clean dir es).1 ∧
    (∀ n c, lookupEntry es n = some (.file c) →
      lookupEntry (clean dir es).1 n = some (.file c)) :=
  ⟨clean_of_resDirFree dir es,
   clean_of_resDirFree dir _ (resDirFree_clean dir es),
   fun n c h => lookupEntry_clean_file dir es n c h⟩

/-- Witness for `c6_clean` on a concrete tree: a case file and a nested
directory, no snapshot state present. -/
theorem c6_clean_witness :
    (clean ["tests"] [("a.قتام", Entry.file "src"),
       ("sub", Entry.dir [("b.قتام", Entry.file "src2")])]).1 =
      [("a.قتام", Entry.file "src"), ("sub", Entry.dir [("b.قتام", Entry.file "src2")])] ∧
    lookupEntry (clean ["tests"] [("a.قتام", Entry.file "src"),
       ("sub", Entry.dir [("b.قتام", Entry.file "src2")])]).1 "a.قتام" =
      some (Entry.file "src") :=
  ⟨(c6_clean ["tests"] _).1 (by simp [resDirFree, resName]),
   (c6_clean ["tests"] _).2.2 "a.قتام" "src" rfl⟩

/-! ### Step lemmas for `runLoop` -/

theorem suffix_resName : suffix resName = "" := by decide

theorem ne_resName_of_suffix_case (n : String) (h : suffix n = caseExt) :
    n ≠ resName := by
  intro hn
  rw [hn, suffix_resName] at h
  exact absurd h (by decide)

theorem runLoop_nil (beh : Behavior) (ms : Clock) (dir : Path) (st : Entries)
    (bn : List (Path × Bool × Nat)) (evs : List Event) :
    runLoop beh ms dir [] st bn evs =
      ⟨st, evs ++ bn.map (fun b => .runBench b.1 b.2.1 b.2.2), none⟩ := by
  simp [runLoop]

theorem runLoop_file_nocase (beh : Behavior) (ms : Clock) (dir : Path)
    (name c : String) (rest : Entries) (st : Entries) (bn : List (Path × Bool × Nat))
    (evs : List Event) (h : suffix name ≠ caseExt) :
    runLoop beh ms dir ((name, .file c) :: rest) st bn evs =
      runLoop beh ms dir rest st bn evs := by
  rw [runLoop]
  simp [h]

theorem runLoop_file_case_missing (beh : Behavior) (ms : Clock) (dir : Path)
    (name c : String) (rest : Entries) (st : Entries) (bn : List (Path × Bool × Nat))
    (evs : List Event) (h : suffix name = caseExt)
    (hmiss : snapFileAt (get_snapshot_path dir st name).2 name = none) :
    runLoop beh ms dir ((name, .file c) :: rest) st bn evs =
      ⟨(get_snapshot_path dir st name).2, evs,
        some (missingMsg (get_snapshot_path dir st name).1)⟩ := by
  rw [runLoop]
  simp [h, hmiss]

theorem runLoop_file_case_found (beh : Behavior) (ms : Clock) (dir : Path)
    (name c snap : String) (rest : Entries) (st : Entries)
    (bn : List (Path × Bool × Nat)) (evs : List Event) (h : suffix name = caseExt)
    (hsnap : snapFileAt (get_snapshot_path dir st name).2 name = some (.file snap)) :
    runLoop beh ms dir ((name, .file c) :: rest) st bn evs =
      runLoop beh ms dir rest (get_snapshot_path dir st name).2
        (bn ++ [(dir ++ [name], (execute beh ms (dir ++ [name])).1 == snap, ms (dir ++ [name]))])
        (evs ++ [.execE (dir ++ [name])]) := by
  rw [runLoop]
  simp [h, hsnap, execute]

theorem runLoop_dir_res (beh : Behavior) (ms : Clock) (dir : Path) (sub : Entries)
    (rest : Entries) (st : Entries) (bn : List (Path × Bool × Nat)) (evs : List Event) :
    runLoop beh ms dir ((resName, .dir sub) :: rest) st bn evs =
      runLoop beh ms dir rest st bn evs := by
  rw [runLoop]
  simp [suffix_resName, caseExt]

theorem runLoop_dir_err (beh : Behavior) (ms : Clock) (dir : Path) (name : String)
    (sub rest : Entries) (st : Entries) (bn : List (Path × Bool × Nat)) (evs : List Event)
    (hname : name ≠ resName) (m : String)
    (herr : (run beh ms (dir ++ [name]) sub).err = some m) :
    runLoop beh ms dir ((name, .dir sub) :: rest) st bn evs =
      ⟨setEntry st name (.dir (run beh ms (dir ++ [name]) sub).fs),
        evs ++ [.recurseE (dir ++ [name])] ++ (run beh ms (dir ++ [name]) sub).events,
        some m⟩ := by
  rw [runLoop]
  rw [run] at herr
  simp [hname, herr, run]

theorem runLoop_dir_ok_nocase (beh : Behavior) (ms : Clock) (dir : Path) (name : String)
    (sub rest : Entries) (st : Entries) (bn : List (Path × Bool × Nat)) (evs : List Event)
    (hname : name ≠ resName) (herr : (run beh ms (dir ++ [name]) sub).err = none)
    (hcase : suffix name ≠ caseExt) :
    runLoop beh ms dir ((name, .dir sub) :: rest) st bn evs =
      runLoop beh ms dir rest (setEntry st name (.dir (run beh ms (dir ++ [name]) sub).fs)) bn
        (evs ++ [.recurseE (dir ++ [name])] ++ (run beh ms (dir ++ [name]) sub).events) := by
  rw [runLoop]
  rw [run] at herr
  simp [hname, herr, hcase, run]

/-! ### Concrete artifact behaviors for counterexamples and witnesses -/

/-- A concrete artifact behavior: exits 0 and prints `hi`. -/
def behA : Behavior := fun _ => ⟨0, "hi", ""⟩

/-- A concrete clock: every case takes 5ms. -/
def msA : Clock := fun _ => 5

/-! ### Claim C2: missing snapshot -/

/-- Claim C2, counterexample: a directory with two test cases and no
snapshots.  `run` raises the missing-snapshot error for the *first* case —
identifying the snapshot path and instructing to run `sync` — but the
uncaught `RuntimeError` aborts the whole invocation: the events are empty,
so the remaining case `b.قتام` is neither executed nor reported, falsifying
"the remaining test cases in the same directory ... are still executed and
reported". -/
theorem c2_counterexample :
    (run behA msA ["tests"] [("a.قتام", Entry.file "x"), ("b.قتام", Entry.file "y")]).err =
      some (missingMsg ["tests", resName, "a.قتام.txt"]) ∧
    (run behA msA ["tests"] [("a.قتام", Entry.file "x"), ("b.قتام", Entry.file "y")]).events = [] := by
  have h1 : suffix "a.قتام" = caseExt := by decide
  have hmiss : snapFileAt (get_snapshot_path ["tests"]
      [("a.قتام", Entry.file "x"), ("b.قتام", Entry.file "y")] "a.قتام").2 "a.قتام" = none := by
    simp [get_snapshot_path, snapFileAt, lookupEntry, lookupEntry_append, resName]
  rw [run, runLoop_file_case_missing behA msA ["tests"] "a.قتام" "x" _ _ _ _ h1 hmiss]
  simp [get_snapshot_path, resName]

/-- Claim C2 (amended): when `run` reaches a case whose snapshot is missing,
it raises an error identifying the offending snapshot path and instructing
the user to run `sync` first — but the error is fatal to the *entire*
invocation, not just that case: the loop returns at once (no further entry
of the directory is visited, no event is emitted, the collected benches are
never reported), and an error escaping a recursive call aborts the parent
loop the same way, so sibling subtrees after the failure point are
abandoned. -/
theorem c2_missing_snapshot_fatal :
    (∀ (beh : Behavior) (ms : Clock) (dir : Path) (name c : String) (rest st : Entries)
       (bn : List (Path × Bool × Nat)) (evs : List Event),
       suffix name = caseExt →
       snapFileAt (get_snapshot_path dir st name).2 name = none →
       runLoop beh ms dir ((name, .file c) :: rest) st bn evs =
         ⟨(get_snapshot_path dir st name).2, evs,
           some (missingMsg (get_snapshot_path dir st name).1)⟩) ∧
    (∀ (beh : Behavior) (ms : Clock) (dir : Path) (dname : String) (sub rest st : Entries)
       (bn : List (Path × Bool × Nat)) (evs : List Event) (m : String),
       dname ≠ resName →
       (run beh ms (dir ++ [dname]) sub).err = some m →
       runLoop beh ms dir ((dname, .dir sub) :: rest) st bn evs =
         ⟨setEntry st dname (.dir (run beh ms (dir ++ [dname]) sub).fs),
           evs ++ [.recurseE (dir ++ [dname])] ++ (run beh ms (dir ++ [dname]) sub).events,
           some m⟩) :=
  ⟨fun beh ms dir name c rest st bn evs h hmiss =>
     runLoop_file_case_missing beh ms dir name c rest st bn evs h hmiss,
   fun beh ms dir dname sub rest st bn evs m hd herr =>
     runLoop_dir_err beh ms dir dname sub rest st bn evs hd m herr⟩

/-- Witness for `c2_missing_snapshot_fatal` at concrete inputs. -/
theorem c2_missing_snapshot_fatal_witness :
    runLoop behA msA ["tests"] [("a.قتام", Entry.file "x")] [("a.قتام", Entry.file "x")] [] [] =
      ⟨(get_snapshot_path ["tests"] [("a.قتام", Entry.file "x")] "a.قتام").2, [],
        some (missingMsg (get_snapshot_path ["tests"] [("a.قتام", Entry.file "x")] "a.قتام").1)⟩ :=
  c2_missing_snapshot_fatal.1 behA msA ["tests"] "a.قتام" "x" [] [("a.قتام", Entry.file "x")] [] []
    (by decide)
    (by simp [get_snapshot_path, snapFileAt, lookupEntry, lookupEntry_append, resName])

/-! ### Claim C3: comparison, marking and (absence of) diff output -/

/-- Claim C3, counterexample: a case whose stored snapshot (`"WRONG"`)
differs from the fresh serialized result.  The complete output of `run` is
the execution of the case followed by the single summary line marking it
failed — no line-level diff is computed or printed anywhere (the events are
exactly these two), falsifying "on mismatch the harness computes and prints
a line-level diff". -/
theorem c3_counterexample :
    run behA msA ["tests"]
      [("a.قتام", Entry.file "x"), (resName, Entry.dir [("a.قتام.txt", Entry.file "WRONG")])] =
      ⟨[("a.قتام", Entry.file "x"), (resName, Entry.dir [("a.قتام.txt", Entry.file "WRONG")])],
       [.execE ["tests", "a.قتام"], .runBench ["tests", "a.قتام"] false 5],
       none⟩ := by
  have h1 : suffix "a.قتام" = caseExt := by decide
  have hsnap : snapFileAt (get_snapshot_path ["tests"]
      [("a.قتام", Entry.file "x"), (resName, Entry.dir [("a.قتام.txt", Entry.file "WRONG")])]
      "a.قتام").2 "a.قتام" = some (.file "WRONG") := by
    simp [get_snapshot_path, snapFileAt, lookupEntry, resName]
  rw [run, runLoop_file_case_found behA msA ["tests"] "a.قتام" "x" "WRONG" _ _ _ _ h1 hsnap]
  rw [show (get_snapshot_path ["tests"]
      [("a.قتام", Entry.file "x"), (resName, Entry.dir [("a.قتام.txt", Entry.file "WRONG")])]
      "a.قتام").2 =
    [("a.قتام", Entry.file "x"), (resName, Entry.dir [("a.قتام.txt", Entry.file "WRONG")])] by
    simp [get_snapshot_path, lookupEntry, resName]]
  rw [runLoop_dir_res, runLoop_nil]
  simp [execute, behA, msA, serialize, intStr, natStr]

/-- Claim C3 (amended): for a case with an existing snapshot, `run` compares
the fresh serialized result against the snapshot text for exact equality and
marks the case passed/failed accordingly in its report line — but it prints
no diff whatsoever: the complete event list is the execution followed by the
single summary line (difflib's `Differ` is imported by the script but never
used). -/
theorem c3_compare_mark_no_diff (beh : Behavior) (ms : Clock) (dir : Path)
    (name c snap : String) (h : suffix name = caseExt) :
    run beh ms dir [(name, .file c), (resName, .dir [(name ++ ".txt", .file snap)])] =
      ⟨[(name, .file c), (resName, .dir [(name ++ ".txt", .file snap)])],
       [.execE (dir ++ [name]),
        .runBench (dir ++ [name]) ((execute beh ms (dir ++ [name])).1 == snap) (ms (dir ++ [name]))],
       none⟩ := by
  have hne : name ≠ resName := ne_resName_of_suffix_case name h
  have hst : (get_snapshot_path dir
      [(name, .file c), (resName, .dir [(name ++ ".txt", .file snap)])] name).2 =
      [(name, .file c), (resName, .dir [(name ++ ".txt", .file snap)])] := by
    simp [get_snapshot_path, lookupEntry, hne]
  have hsnap : snapFileAt (get_snapshot_path dir
      [(name, .file c), (resName, .dir [(name ++ ".txt", .file snap)])] name).2 name =
      some (.file snap) := by
    rw [hst]
    simp [snapFileAt, lookupEntry, hne]
  rw [run, runLoop_file_case_found beh ms dir name c snap _ _ _ _ h hsnap, hst,
    runLoop_dir_res, runLoop_nil]
  simp [execute]

/-- Witness for `c3_compare_mark_no_diff` at a concrete matching snapshot. -/
theorem c3_compare_mark_no_diff_witness :
    run behA msA ["tests"]
      [("a.قتام", Entry.file "x"),
       (resName, Entry.dir [("a.قتام.txt", Entry.file "returncode: 0\nstdout:\nhistderr:\n")])] =
      ⟨[("a.قتام", Entry.file "x"),
        (resName, Entry.dir [("a.قتام.txt", Entry.file "returncode: 0\nstdout:\nhistderr:\n")])],
       [.execE ["tests", "a.قتام"],
        .runBench ["tests", "a.قتام"]
          ((execute behA msA ["tests", "a.قتام"]).1 == "returncode: 0\nstdout:\nhistderr:\n")
          (msA ["tests", "a.قتام"])],
       none⟩ :=
  c3_compare_mark_no_diff behA msA ["tests"] "a.قتام" "x"
    "returncode: 0\nstdout:\nhistderr:\n" (by decide)

/-! ### Claim C9: run mutates the store on its error path -/

/-- Claim C9, counterexample: two sibling directories, each holding one test
case, never synced.  `run` creates the (empty) results container only in the
*first* directory and then aborts with the missing-snapshot error; the
second directory is left untouched — no container is created there — so the
error path does *not* reach "each such directory". -/
theorem c9_counterexample :
    run behA msA ["tests"]
      [("d1", Entry.dir [("a.قتام", Entry.file "x")]),
       ("d2", Entry.dir [("b.قتام", Entry.file "y")])] =
      ⟨[("d1", Entry.dir [("a.قتام", Entry.file "x"), (resName, Entry.dir [])]),
        ("d2", Entry.dir [("b.قتام", Entry.file "y")])],
       [.recurseE ["tests", "d1"]],
       some (missingMsg ["tests", "d1", resName, "a.قتام.txt"])⟩ ∧
    lookupEntry [("b.قتام", Entry.file "y")] resName = none := by
  constructor
  · have hchild : run behA msA ["tests", "d1"] [("a.قتام", Entry.file "x")] =
        ⟨[("a.قتام", Entry.file "x"), (resName, Entry.dir [])], [],
          some (missingMsg ["tests", "d1", resName, "a.قتام.txt"])⟩ := by
      have h1 : suffix "a.قتام" = caseExt := by decide
      have hmiss : snapFileAt (get_snapshot_path ["tests", "d1"]
          [("a.قتام", Entry.file "x")] "a.قتام").2 "a.قتام" = none := by
        simp [get_snapshot_path, snapFileAt, lookupEntry, lookupEntry_append, resName]
      rw [run, runLoop_file_case_missing behA msA ["tests", "d1"] "a.قتام" "x" _ _ _ _ h1 hmiss]
      simp [get_snapshot_path, lookupEntry, resName]
    rw [run, runLoop_dir_err behA msA ["tests"] "d1" _ _ _ _ _ (by decide) _
      (by simp only [List.cons_append, List.nil_append]; rw [hchild])]
    simp only [List.cons_append, List.nil_append]
    rw [hchild]
    simp [setEntry, resName]
  · simp [lookupEntry, resName]

/-- Claim C9 (amended): `run` calls the snapshot-path mapping before checking
existence, so on a never-synced tree the filesystem is mutated on the error
path — but only up to the abort point: the empty results container is
created (and any regular file bearing the container's name removed) in the
directory of the *first* test case encountered, after which the uncaught
error aborts the traversal, leaving every later directory untouched. -/
theorem c9_run_mutates_on_error (beh : Behavior) (ms : Clock) (dir : Path)
    (d1 d2 n1 n2 c1 c2 : String) (h1 : suffix n1 = caseExt) (hd1 : d1 ≠ resName) :
    run beh ms dir [(d1, .dir [(n1, .file c1)]), (d2, .dir [(n2, .file c2)])] =
      ⟨[(d1, .dir [(n1, .file c1), (resName, .dir [])]), (d2, .dir [(n2, .file c2)])],
       [.recurseE (dir ++ [d1])],
       some (missingMsg (dir ++ [d1] ++ [resName, n1 ++ ".txt"]))⟩ := by
  have hn1 : n1 ≠ resName := ne_resName_of_suffix_case n1 h1
  have hchild : run beh ms (dir ++ [d1]) [(n1, .file c1)] =
      ⟨[(n1, .file c1), (resName, Entry.dir [])], [],
        some (missingMsg (dir ++ [d1] ++ [resName, n1 ++ ".txt"]))⟩ := by
    have hmiss : snapFileAt (get_snapshot_path (dir ++ [d1])
        [(n1, Entry.file c1)] n1).2 n1 = none := by
      simp [get_snapshot_path, snapFileAt, lookupEntry, lookupEntry_append, hn1]
    rw [run, runLoop_file_case_missing beh ms (dir ++ [d1]) n1 c1 _ _ _ _ h1 hmiss]
    simp [get_snapshot_path, lookupEntry, hn1]
  rw [run, runLoop_dir_err beh ms dir d1 _ _ _ _ _ hd1 _ (by rw [hchild])]
  rw [hchild]
  simp [setEntry]

/-- Witness for `c9_run_mutates_on_error` at concrete inputs. -/
theorem c9_run_mutates_on_error_witness :
    run behA msA ["t"] [("u", Entry.dir [("c.قتام", Entry.file "s")]),
      ("v", Entry.dir [("d.قتام", Entry.file "w")])] =
      ⟨[("u", Entry.dir [("c.قتام", Entry.file "s"), (resName, Entry.dir [])]),
        ("v", Entry.dir [("d.قتام", Entry.file "w")])],
       [.recurseE ["t", "u"]],
       some (missingMsg (["t"] ++ ["u"] ++ [resName, "c.قتام" ++ ".txt"]))⟩ :=
  c9_run_mutates_on_error behA msA ["t"] "u" "v" "c.قتام" "d.قتام" "s" "w"
    (by decide) (by decide)

/-! ### Remaining step lemmas for `runLoop` and step lemmas for `syncLoop` -/

theorem runLoop_file_case_snapdir (beh : Behavior) (ms : Clock) (dir : Path)
    (name c : String) (l : Entries) (rest : Entries) (st : Entries)
    (bn : List (Path × Bool × Nat)) (evs : List Event) (h : suffix name = caseExt)
    (hsnap : snapFileAt (get_snapshot_path dir st name).2 name = some (.dir l)) :
    runLoop beh ms dir ((name, .file c) :: rest) st bn evs =
      ⟨(get_snapshot_path dir st name).2,
        evs ++ [.errLine (pathJoin (get_snapshot_path dir st name).1)]
          ++ bn.map (fun b => .runBench b.1 b.2.1 b.2.2), none⟩ := by
  rw [runLoop]
  simp [h, hsnap]

theorem runLoop_dir_ok (beh : Behavior) (ms : Clock) (dir : Path) (name : String)
    (sub rest : Entries) (st : Entries) (bn : List (Path × Bool × Nat)) (evs : List Event)
    (hname : name ≠ resName) (herr : (run beh ms (dir ++ [name]) sub).err = none) :
    runLoop beh ms dir ((name, .dir sub) :: rest) st bn evs =
      runLoop beh ms dir ((name, .file "") :: rest)
        (setEntry st name (.dir (run beh ms (dir ++ [name]) sub).fs)) bn
        (evs ++ [.recurseE (dir ++ [name])] ++ (run beh ms (dir ++ [name]) sub).events) := by
  conv_lhs => rw [runLoop]
  conv_rhs => rw [runLoop]
  rw [run] at herr
  simp [hname, herr, run]

theorem syncLoop_nil (beh : Behavior) (ms : Clock) (dir : Path) (cont : Option Snaps)
    (acc : Entries) (bn : List (Path × Nat)) (evs : List Event) :
    syncLoop beh ms dir [] cont acc bn evs =
      ⟨(match cont with
        | some l => acc ++ [(resName, .dir (contToEntries l))]
        | none => acc),
       evs ++ bn.map (fun b => .syncBench b.1 b.2)⟩ := by
  conv_lhs => rw [syncLoop.eq_def]

theorem syncLoop_file_plain (beh : Behavior) (ms : Clock) (dir : Path) (name c : String)
    (rest : Entries) (cont : Option Snaps) (acc : Entries) (bn : List (Path × Nat))
    (evs : List Event) (hedge : ¬(name = resName ∧ cont.isSome))
    (hcase : suffix name ≠ caseExt) :
    syncLoop beh ms dir ((name, .file c) :: rest) cont acc bn evs =
      syncLoop beh ms dir rest cont (acc ++ [(name, .file c)]) bn evs := by
  rcases cont with _ | l
  · conv_lhs => rw [syncLoop.eq_def]
    simp [hcase]
  · have hname : ¬name = resName := fun h => hedge ⟨h, rfl⟩
    conv_lhs => rw [syncLoop.eq_def]
    simp [hcase, hname]

theorem syncLoop_file_case_some (beh : Behavior) (ms : Clock) (dir : Path) (name c : String)
    (rest : Entries) (l : Snaps) (acc : Entries) (bn : List (Path × Nat))
    (evs : List Event) (hcase : suffix name = caseExt) :
    syncLoop beh ms dir ((name, .file c) :: rest) (some l) acc bn evs =
      syncLoop beh ms dir rest (some (setSnap l name (execute beh ms (dir ++ [name])).1))
        (acc ++ [(name, .file c)]) (bn ++ [(dir ++ [name], ms (dir ++ [name]))])
        (evs ++ [.execE (dir ++ [name])]) := by
  have hname : ¬name = resName := ne_resName_of_suffix_case name hcase
  rw [syncLoop]
  simp [hcase, hname, execute]

theorem syncLoop_file_case_none (beh : Behavior) (ms : Clock) (dir : Path) (name c : String)
    (rest : Entries) (acc : Entries) (bn : List (Path × Nat))
    (evs : List Event) (hcase : suffix name = caseExt) :
    syncLoop beh ms dir ((name, .file c) :: rest) none acc bn evs =
      syncLoop beh ms dir rest (some [(name, (execute beh ms (dir ++ [name])).1)])
        (removeEntry (acc ++ [(name, .file c)]) resName)
        (bn ++ [(dir ++ [name], ms (dir ++ [name]))])
        (evs ++ [.execE (dir ++ [name])]) := by
  rw [syncLoop]
  simp [hcase, execute, setSnap]

theorem syncLoop_file_edge (beh : Behavior) (ms : Clock) (dir : Path) (c : String)
    (rest : Entries) (l : Snaps) (acc : Entries) (bn : List (Path × Nat))
    (evs : List Event) :
    syncLoop beh ms dir ((resName, .file c) :: rest) (some l) acc bn evs =
      syncLoop beh ms dir rest (some l) acc bn
        (evs ++ [.recurseE (dir ++ [resName])]
          ++ (sync beh ms (dir ++ [resName]) (contToEntries l)).events) := by
  rw [syncLoop]
  simp [suffix_resName, caseExt, sync]

theorem syncLoop_dir_nocase (beh : Behavior) (ms : Clock) (dir : Path) (name : String)
    (sub rest : Entries) (cont : Option Snaps) (acc : Entries) (bn : List (Path × Nat))
    (evs : List Event) (hcase : suffix name ≠ caseExt) :
    syncLoop beh ms dir ((name, .dir sub) :: rest) cont acc bn evs =
      syncLoop beh ms dir rest cont
        (acc ++ [(name, .dir (sync beh ms (dir ++ [name]) sub).fs)]) bn
        (evs ++ [.recurseE (dir ++ [name])] ++ (sync beh ms (dir ++ [name]) sub).events) := by
  rcases cont with _ | l <;>
    (rw [syncLoop]; simp [hcase, sync])

theorem syncLoop_dir_case_some (beh : Behavior) (ms : Clock) (dir : Path) (name : String)
    (sub rest : Entries) (l : Snaps) (acc : Entries) (bn : List (Path × Nat))
    (evs : List Event) (hcase : suffix name = caseExt) :
    syncLoop beh ms dir ((name, .dir sub) :: rest) (some l) acc bn evs =
      syncLoop beh ms dir rest (some (setSnap l name (execute beh ms (dir ++ [name])).1))
        (acc ++ [(name, .dir (sync beh ms (dir ++ [name]) sub).fs)])
        (bn ++ [(dir ++ [name], ms (dir ++ [name]))])
        (evs ++ [.recurseE (dir ++ [name])] ++ (sync beh ms (dir ++ [name]) sub).events
          ++ [.execE (dir ++ [name])]) := by
  rw [syncLoop]
  simp [hcase, execute, sync]

theorem syncLoop_dir_case_none (beh : Behavior) (ms : Clock) (dir : Path) (name : String)
    (sub rest : Entries) (acc : Entries) (bn : List (Path × Nat))
    (evs : List Event) (hcase : suffix name = caseExt) :
    syncLoop beh ms dir ((name, .dir sub) :: rest) none acc bn evs =
      syncLoop beh ms dir rest (some [(name, (execute beh ms (dir ++ [name])).1)])
        (removeEntry (acc ++ [(name, .dir (sync beh ms (dir ++ [name]) sub).fs)]) resName)
        (bn ++ [(dir ++ [name], ms (dir ++ [name]))])
        (evs ++ [.recurseE (dir ++ [name])] ++ (sync beh ms (dir ++ [name]) sub).events
          ++ [.execE (dir ++ [name])]) := by
  rw [syncLoop]
  simp [hcase, execute, sync, setSnap]

/-! ### The freshly created container is a fixed point of `sync` -/

theorem clean_contToEntries (dir : Path) (l : Snaps) :
    clean dir (contToEntries l) = (contToEntries l, []) := by
  induction l with
  | nil => simp [contToEntries, clean]
  | cons nc rest ih =>
    simp only [contToEntries, List.map_cons] at *
    rw [clean]
    simp [ih]

theorem syncLoop_contToEntries (beh : Behavior) (ms : Clock) (dir : Path) (l : Snaps)
    (acc : Entries) (evs : List Event) :
    syncLoop beh ms dir (contToEntries l) none acc [] evs =
      ⟨acc ++ contToEntries l, evs⟩ := by
  induction l generalizing acc with
  | nil => simp [contToEntries, syncLoop_nil]
  | cons nc rest ih =>
    simp only [contToEntries, List.map_cons]
    rw [syncLoop_file_plain beh ms dir _ _ _ none _ _ _ (by simp)
      (suffix_append_txt_ne nc.1)]
    rw [show (List.map (fun nc => (nc.1 ++ ".txt", Entry.file nc.2)) rest) =
      contToEntries rest from rfl]
    rw [ih]
    simp [contToEntries]

/-- A pass of `sync` over the freshly created results container (all entries
are `{case}.txt` snapshot files, none a directory, none case-suffixed)
rewrites nothing and prints nothing. -/
theorem sync_container_fixed (beh : Behavior) (ms : Clock) (dir : Path) (l : Snaps) :
    sync beh ms dir (contToEntries l) = ⟨contToEntries l, []⟩ := by
  rw [sync, clean_contToEntries]
  simpa using syncLoop_contToEntries beh ms dir l [] []

/-! ### Events touching the results container (claim C5) -/

/-- An event respects container isolation when it is not a recursion into, or
an execution of, a path whose final component is the reserved container
name. -/
def eventOk (e : Event) : Prop :=
  ∀ p : Path, (e = .recurseE p ∨ e = .execE p) → p.getLast? ≠ some resName

theorem eventOk_syncBench (p : Path) (m : Nat) : eventOk (.syncBench p m) := by
  intro q hq
  rcases hq with h | h <;> simp at h

theorem eventOk_runBench (p : Path) (ok : Bool) (m : Nat) : eventOk (.runBench p ok m) := by
  intro q hq
  rcases hq with h | h <;> simp at h

theorem eventOk_errLine (s : String) : eventOk (.errLine s) := by
  intro q hq
  rcases hq with h | h <;> simp at h

theorem eventOk_recurse (dir : Path) (name : String) (h : name ≠ resName) :
    eventOk (.recurseE (dir ++ [name])) := by
  intro q hq
  rcases hq with he | he
  · simp only [Event.recurseE.injEq] at he
    subst he
    rw [List.getLast?_concat]
    simp [h]
  · simp at he

theorem eventOk_exec (dir : Path) (name : String) (h : name ≠ resName) :
    eventOk (.execE (dir ++ [name])) := by
  intro q hq
  rcases hq with he | he
  · simp at he
  · simp only [Event.execE.injEq] at he
    subst he
    rw [List.getLast?_concat]
    simp [h]

theorem clean_events_ok (dir : Path) (es : Entries) :
    ∀ e ∈ (clean dir es).2, eventOk e := by
  induction dir, es using clean.induct with
  | case1 => simp [clean]
  | case2 d sub rest ih => simpa [clean] using ih
  | case3 d n sub rest hn ih1 ih2 =>
    intro e he
    simp only [clean, hn, if_false, List.mem_append, List.mem_singleton, List.cons_append,
      List.nil_append, List.mem_cons] at he
    rcases he with rfl | he | he
    · exact eventOk_recurse d n hn
    · exact ih1 e he
    · exact ih2 e he
  | case4 d n c rest ih =>
    intro e he
    simp only [clean] at he
    exact ih e he

theorem szL_eq_zero (es : Entries) (h : szL es = 0) : es = [] := by
  cases es with
  | nil => rfl
  | cons p rest =>
    obtain ⟨n, e⟩ := p
    cases e <;> simp [szL] at h

theorem szL_clean_le (dir : Path) (es : Entries) : szL (clean dir es).1 ≤ szL es := by
  induction dir, es using clean.induct <;> simp_all [clean, szL] <;> omega

/-- No regular file named `النتائج` anywhere in the tree. -/
def resFileFree : Entries → Bool
  | [] => true
  | (n, .file _) :: rest => (n != resName) && resFileFree rest
  | (_, .dir sub) :: rest => resFileFree sub && resFileFree rest

theorem resFileFree_clean (dir : Path) (es : Entries) (h : resFileFree es = true) :
    resFileFree (clean dir es).1 = true := by
  induction dir, es using clean.induct with
  | case1 => simpa [clean] using h
  | case2 d sub rest ih =>
    rw [resFileFree] at h
    simp only [Bool.and_eq_true] at h
    simpa [clean] using ih h.2
  | case3 d n sub rest hn ih1 ih2 =>
    rw [resFileFree] at h
    simp only [Bool.and_eq_true] at h
    simp [clean, hn, resFileFree, ih1 h.1, ih2 h.2]
  | case4 d n c rest ih =>
    rw [resFileFree] at h
    simp only [Bool.and_eq_true] at h
    simp only [clean, resFileFree, Bool.and_eq_true]
    exact ⟨h.1, ih h.2⟩

theorem clean_no_top_resdir (dir : Path) (es : Entries) :
    ∀ sub, (resName, Entry.dir sub) ∉ (clean dir es).1 := by
  induction dir, es using clean.induct with
  | case1 => simp [clean]
  | case2 d sub rest ih => simpa [clean] using ih
  | case3 d n sub rest hn ih1 ih2 =>
    intro sub' hmem
    simp only [clean, hn, if_false, List.mem_cons, Prod.mk.injEq] at hmem
    rcases hmem with ⟨h1, _⟩ | hmem
    · exact hn h1.symm
    · exact ih2 sub' hmem
  | case4 d n c rest ih =>
    intro sub' hmem
    simp only [clean, List.mem_cons, Prod.mk.injEq] at hmem
    rcases hmem with ⟨_, h2⟩ | hmem
    · exact absurd h2 (by simp)
    · exact ih sub' hmem

theorem runLoop_events_ok (beh : Behavior) (ms : Clock) : ∀ (N : Nat) (todo : Entries),
    szL todo ≤ N → ∀ (dir : Path) (st : Entries) (bn : List (Path × Bool × Nat))
    (evs : List Event), (∀ e ∈ evs, eventOk e) →
    ∀ e ∈ (runLoop beh ms dir todo st bn evs).events, eventOk e := by
  intro N
  induction N with
  | zero =>
    intro todo hsz dir st bn evs hevs e he
    rw [szL_eq_zero todo (Nat.le_zero.mp hsz), runLoop_nil] at he
    simp only [RunOut.mk.injEq, List.mem_append] at he
    rcases he with he | he
    · exact hevs e he
    · obtain ⟨b, _, rfl⟩ := List.mem_map.mp he
      exact eventOk_runBench _ _ _
  | succ N ih =>
    intro todo hsz dir st bn evs hevs e he
    rcases todo with _ | ⟨⟨name, e0⟩, rest⟩
    · rw [runLoop_nil] at he
      simp only [List.mem_append] at he
      rcases he with he | he
      · exact hevs e he
      · obtain ⟨b, _, rfl⟩ := List.mem_map.mp he
        exact eventOk_runBench _ _ _
    · rcases e0 with c | sub
      · -- file entry
        have hrest : szL rest ≤ N := by
          simp only [szL] at hsz
          omega
        by_cases hcase : suffix name = caseExt
        · have hnres := ne_resName_of_suffix_case name hcase
          rcases hsnap : snapFileAt (get_snapshot_path dir st name).2 name with _ | e1
          · rw [runLoop_file_case_missing beh ms dir name c rest st bn evs hcase hsnap] at he
            exact hevs e he
          · rcases e1 with snap | l
            · rw [runLoop_file_case_found beh ms dir name c snap rest st bn evs hcase hsnap] at he
              refine ih rest hrest dir _ _ _ ?_ e he
              intro e' he'
              rcases List.mem_append.mp he' with h | h
              · exact hevs e' h
              · simp only [List.mem_singleton] at h
                subst h
                exact eventOk_exec dir name hnres
            · rw [runLoop_file_case_snapdir beh ms dir name c l rest st bn evs hcase hsnap] at he
              simp only [List.mem_append] at he
              rcases he with (he | he) | he
              · exact hevs e he
              · simp only [List.mem_singleton] at he
                subst he
                exact eventOk_errLine _
              · obtain ⟨b, _, rfl⟩ := List.mem_map.mp he
                exact eventOk_runBench _ _ _
        · rw [runLoop_file_nocase beh ms dir name c rest st bn evs hcase] at he
          exact ih rest hrest dir st bn evs hevs e he
      · -- directory entry
        have hsub : szL sub ≤ N := by
          simp only [szL] at hsz
          omega
        have hrest : szL ((name, Entry.file "") :: rest) ≤ N := by
          simp only [szL] at hsz ⊢
          omega
        by_cases hname : name = resName
        · subst hname
          rw [runLoop_dir_res] at he
          refine ih rest ?_ dir st bn evs hevs e he
          simp only [szL] at hsz
          omega
        · have hchild : ∀ e' ∈ (run beh ms (dir ++ [name]) sub).events, eventOk e' := by
            intro e' he'
            exact ih sub hsub (dir ++ [name]) sub [] [] (by simp) e' he'
          have hext : ∀ e' ∈ evs ++ [Event.recurseE (dir ++ [name])]
              ++ (run beh ms (dir ++ [name]) sub).events, eventOk e' := by
            intro e' he'
            rcases List.mem_append.mp he' with h | h
            · rcases List.mem_append.mp h with h2 | h2
              · exact hevs e' h2
              · simp only [List.mem_singleton] at h2
                subst h2
                exact eventOk_recurse dir name hname
            · exact hchild e' h
          rcases herr : (run beh ms (dir ++ [name]) sub).err with _ | m
          · rw [runLoop_dir_ok beh ms dir name sub rest st bn evs hname herr] at he
            exact ih ((name, Entry.file "") :: rest) hrest dir _ bn _ hext e he
          · rw [runLoop_dir_err beh ms dir name sub rest st bn evs hname m herr] at he
            exact hext e he

theorem run_events_ok (beh : Behavior) (ms : Clock) (dir : Path) (es : Entries) :
    ∀ e ∈ (run beh ms dir es).events, eventOk e := by
  rw [run]
  exact runLoop_events_ok beh ms (szL es) es (Nat.le_refl _) dir es [] [] (by simp)

theorem syncLoop_events_ok (beh : Behavior) (ms : Clock) : ∀ (N : Nat) (todo : Entries),
    szL todo ≤ N → ∀ (dir : Path) (cont : Option Snaps) (acc : Entries)
    (bn : List (Path × Nat)) (evs : List Event),
    resFileFree todo = true →
    (∀ sub, (resName, Entry.dir sub) ∉ todo) →
    (∀ e ∈ evs, eventOk e) →
    ∀ e ∈ (syncLoop beh ms dir todo cont acc bn evs).events, eventOk e := by
  intro N
  induction N with
  | zero =>
    intro todo hsz dir cont acc bn evs _ _ hevs e he
    rw [szL_eq_zero todo (Nat.le_zero.mp hsz), syncLoop_nil] at he
    simp only [List.mem_append] at he
    rcases he with he | he
    · exact hevs e he
    · obtain ⟨b, _, rfl⟩ := List.mem_map.mp he
      exact eventOk_syncBench _ _
  | succ N ih =>
    intro todo hsz dir cont acc bn evs hrf hnd hevs e he
    rcases todo with _ | ⟨⟨name, e0⟩, rest⟩
    · rw [syncLoop_nil] at he
      simp only [List.mem_append] at he
      rcases he with he | he
      · exact hevs e he
      · obtain ⟨b, _, rfl⟩ := List.mem_map.mp he
        exact eventOk_syncBench _ _
    · rcases e0 with c | sub
      · -- file entry; a file named النتائج is excluded by resFileFree
        rw [resFileFree, Bool.and_eq_true, bne_iff_ne] at hrf
        have hname : name ≠ resName := hrf.1
        have hrest : szL rest ≤ N := by
          simp only [szL] at hsz
          omega
        have hndr : ∀ sub, (resName, Entry.dir sub) ∉ rest := by
          intro sub hmem
          exact hnd sub (List.mem_cons_of_mem _ hmem)
        by_cases hcase : suffix name = caseExt
        · rcases cont with _ | l
          · rw [syncLoop_file_case_none beh ms dir name c rest acc bn evs hcase] at he
            refine ih rest hrest dir _ _ _ _ hrf.2 hndr ?_ e he
            intro e' he'
            rcases List.mem_append.mp he' with h | h
            · exact hevs e' h
            · simp only [List.mem_singleton] at h
              subst h
              exact eventOk_exec dir name hname
          · rw [syncLoop_file_case_some beh ms dir name c rest l acc bn evs hcase] at he
            refine ih rest hrest dir _ _ _ _ hrf.2 hndr ?_ e he
            intro e' he'
            rcases List.mem_append.mp he' with h | h
            · exact hevs e' h
            · simp only [List.mem_singleton] at h
              subst h
              exact eventOk_exec dir name hname
        · rw [syncLoop_file_plain beh ms dir name c rest cont acc bn evs
            (by intro hh; exact hname hh.1) hcase] at he
          exact ih rest hrest dir cont _ bn evs hrf.2 hndr hevs e he
      · -- directory entry
        rw [resFileFree, Bool.and_eq_true] at hrf
        have hname : name ≠ resName := by
          intro hh
          subst hh
          exact hnd sub (List.mem_cons_self _ _)
        have hsub : szL sub ≤ N := by
          simp only [szL] at hsz
          omega
        have hrest : szL rest ≤ N := by
          simp only [szL] at hsz
          omega
        have hndr : ∀ sub', (resName, Entry.dir sub') ∉ rest := by
          intro sub' hmem
          exact hnd sub' (List.mem_cons_of_mem _ hmem)
        have hchild : ∀ e' ∈ (sync beh ms (dir ++ [name]) sub).events, eventOk e' := by
          rw [sync]
          refine ih (clean (dir ++ [name]) sub).1
            (Nat.le_trans (szL_clean_le _ _) hsub) (dir ++ [name]) none [] [] _
            (resFileFree_clean _ _ hrf.1) (clean_no_top_resdir _ _) ?_
          exact clean_events_ok _ _
        have hext : ∀ e' ∈ evs ++ [Event.recurseE (dir ++ [name])]
            ++ (sync beh ms (dir ++ [name]) sub).events, eventOk e' := by
          intro e' he'
          rcases List.mem_append.mp he' with h | h
          · rcases List.mem_append.mp h with h2 | h2
            · exact hevs e' h2
            · simp only [List.mem_singleton] at h2
              subst h2
              exact eventOk_recurse dir name hname
          · exact hchild e' h
        by_cases hcase : suffix name = caseExt
        · rcases cont with _ | l
          · rw [syncLoop_dir_case_none beh ms dir name sub rest acc bn evs hcase] at he
            refine ih rest hrest dir _ _ _ _ hrf.2 hndr ?_ e he
            intro e' he'
            rcases List.mem_append.mp he' with h | h
            · exact hext e' h
            · simp only [List.mem_singleton] at h
              subst h
              exact eventOk_exec dir name hname
          · rw [syncLoop_dir_case_some beh ms dir name sub rest l acc bn evs hcase] at he
            refine ih rest hrest dir _ _ _ _ hrf.2 hndr ?_ e he
            intro e' he'
            rcases List.mem_append.mp he' with h | h
            · exact hext e' h
            · simp only [List.mem_singleton] at h
              subst h
              exact eventOk_exec dir name hname
        · rw [syncLoop_dir_nocase beh ms dir name sub rest cont acc bn evs hcase] at he
          exact ih rest hrest dir cont _ bn _ hrf.2 hndr hext e he

theorem sync_events_ok (beh : Behavior) (ms : Clock) (dir : Path) (es : Entries)
    (h : resFileFree es = true) :
    ∀ e ∈ (sync beh ms dir es).events, eventOk e := by
  rw [sync]
  exact syncLoop_events_ok beh ms (szL (clean dir es).1) (clean dir es).1 (Nat.le_refl _)
    dir none [] [] _ (resFileFree_clean _ _ h) (clean_no_top_resdir _ _)
    (clean_events_ok _ _)

theorem clean_no_exec (dir : Path) (es : Entries) (p : Path) :
    Event.execE p ∉ (clean dir es).2 := by
  induction dir, es using clean.induct with
  | case1 => simp [clean]
  | case2 d sub rest ih => simpa [clean] using ih
  | case3 d n sub rest hn ih1 ih2 =>
    intro hmem
    simp only [clean, hn, if_false, List.cons_append, List.nil_append, List.mem_cons,
      List.mem_append] at hmem
    rcases hmem with h | h | h
    · simp at h
    · exact ih1 h
    · exact ih2 h
  | case4 d n c rest ih =>
    intro hmem
    simp only [clean] at hmem
    exact ih hmem

/-- Claim C5, counterexample: a directory holding a test case and a *regular
file* named `النتائج`.  Processing the case creates the results container
(removing that file); when the loop later reaches the listing entry
`النتائج`, `path.is_dir()` is now true and `sync` recurses into the results
container it just created — falsifying "the reserved results container
directory is never recursed into as a generic subdirectory" for `sync`. -/
theorem c5_counterexample :
    Event.recurseE ["tests", resName] ∈
      (sync behA msA ["tests"]
        [("a.قتام", Entry.file "x"), (resName, Entry.file "junk")]).events := by
  rw [sync]
  rw [show clean ["tests"] [("a.قتام", Entry.file "x"), (resName, Entry.file "junk")] =
      ([("a.قتام", Entry.file "x"), (resName, Entry.file "junk")], []) by
    simp [clean]]
  rw [syncLoop_file_case_none behA msA ["tests"] "a.قتام" "x" _ _ _ _ (by decide)]
  rw [syncLoop_file_edge]
  rw [sync_container_fixed]
  rw [syncLoop_nil]
  simp

/-- Claim C5 (amended): `run` and `clean` never recurse into the reserved
results container nor execute it as a test case, on any tree; `clean` never
executes anything at all.  `sync` also never recurses into the container or
executes it *provided* no directory of the tree contains a regular file
named `النتائج`; without that proviso, `sync` can recurse into the container
it has just created (see the counterexample), because the container comes
into existence between `listdir` and the `is_dir` check of that entry. -/
theorem c5_container_isolation :
    (∀ (beh : Behavior) (ms : Clock) (dir : Path) (es : Entries) (p : Path),
       Event.recurseE p ∈ (run beh ms dir es).events → p.getLast? ≠ some resName) ∧
    (∀ (beh : Behavior) (ms : Clock) (dir : Path) (es : Entries) (p : Path),
       Event.execE p ∈ (run beh ms dir es).events → p.getLast? ≠ some resName) ∧
    (∀ (dir : Path) (es : Entries) (p : Path),
       Event.recurseE p ∈ (clean dir es).2 → p.getLast? ≠ some resName) ∧
    (∀ (dir : Path) (es : Entries) (p : Path), Event.execE p ∉ (clean dir es).2) ∧
    (∀ (beh : Behavior) (ms : Clock) (dir : Path) (es : Entries) (p : Path),
       resFileFree es = true →
       Event.recurseE p ∈ (sync beh ms dir es).events → p.getLast? ≠ some resName) ∧
    (∀ (beh : Behavior) (ms : Clock) (dir : Path) (es : Entries) (p : Path),
       resFileFree es = true →
       Event.execE p ∈ (sync beh ms dir es).events → p.getLast? ≠ some resName) :=
  ⟨fun beh ms dir es p h => run_events_ok beh ms dir es _ h p (Or.inl rfl),
   fun beh ms dir es p h => run_events_ok beh ms dir es _ h p (Or.inr rfl),
   fun dir es p h => clean_events_ok dir es _ h p (Or.inl rfl),
   clean_no_exec,
   fun beh ms dir es p hrf h => sync_events_ok beh ms dir es hrf _ h p (Or.inl rfl),
   fun beh ms dir es p hrf h => sync_events_ok beh ms dir es hrf _ h p (Or.inr rfl)⟩

/-- Witness for `c5_container_isolation` at concrete trees: a recursion event
of `run` and one of `sync`, each into an ordinary subdirectory. -/
theorem c5_container_isolation_witness :
    (["tests", "u"] : Path).getLast? ≠ some resName ∧
    (["tests", "v"] : Path).getLast? ≠ some resName := by
  have hrunnil : run behA msA (["tests"] ++ ["u"]) [] = ⟨[], [], none⟩ := by
    rw [run, runLoop_nil]
    simp
  have hrun : Event.recurseE ["tests", "u"] ∈
      (run behA msA ["tests"] [("u", Entry.dir [])]).events := by
    rw [run, runLoop_dir_ok behA msA ["tests"] "u" [] [] _ [] [] (by decide)
      (by rw [hrunnil])]
    rw [hrunnil]
    rw [runLoop_file_nocase behA msA ["tests"] "u" "" _ _ _ _ (by decide)]
    rw [runLoop_nil]
    simp
  have hsyncnil : sync behA msA (["tests"] ++ ["v"]) [] = ⟨[], []⟩ := by
    rw [sync]
    rw [show clean (["tests"] ++ ["v"]) ([] : Entries) = ([], []) by simp [clean]]
    rw [syncLoop_nil]
    simp
  have hsync : Event.recurseE ["tests", "v"] ∈
      (sync behA msA ["tests"] [("v", Entry.dir [])]).events := by
    rw [sync]
    rw [show clean ["tests"] [("v", Entry.dir [])] =
        ([("v", Entry.dir [])], [Event.recurseE (["tests"] ++ ["v"])]) by
      simp [clean, resName]]
    rw [syncLoop_dir_nocase behA msA ["tests"] "v" [] [] none _ _ _ (by decide)]
    rw [syncLoop_nil]
    simp [resName]
  exact ⟨c5_container_isolation.1 behA msA ["tests"] [("u", Entry.dir [])]
      ["tests", "u"] hrun,
    c5_container_isolation.2.2.2.2.1 behA msA ["tests"] [("v", Entry.dir [])]
      ["tests", "v"] (by simp [resFileFree]) hsync⟩

/-! ### The synced-tree invariant (claims C4 and C10) -/

/-- The serialized result of executing the artifact on `p` (what `execute`
passes to the snapshot store and the comparison). -/
def freshResult (beh : Behavior) (p : Path) : String :=
  serialize (beh p).returncode (beh p).stdout (beh p).stderr

theorem execute_fst (beh : Behavior) (ms : Clock) (p : Path) :
    (execute beh ms p).1 = freshResult beh p := rfl

/-- Look up a snapshot by case name in the container being built. -/
def lookupSnap (l : Snaps) (n : String) : Option String :=
  match l with
  | [] => none
  | (m, v) :: rest => if m = n then some v else lookupSnap rest n

/-- Look up a snapshot by case name, `none` when the container does not
exist yet. -/
def contLookup (cont : Option Snaps) (n : String) : Option String :=
  match cont with
  | none => none
  | some l => lookupSnap l n

theorem lookupSnap_setSnap (l : Snaps) (n v m : String) :
    lookupSnap (setSnap l n v) m = if m = n then some v else lookupSnap l m := by
  induction l with
  | nil =>
    simp only [setSnap, lookupSnap]
    by_cases h : m = n
    · subst h
      simp
    · rw [if_neg (fun hh : n = m => h hh.symm), if_neg h]
  | cons p rest ih =>
    obtain ⟨k, w⟩ := p
    by_cases hk : k = n
    · subst hk
      simp only [setSnap, if_pos rfl, lookupSnap]
      by_cases h : m = k
      · subst h
        simp
      · rw [if_neg (fun hh : k = m => h hh.symm), if_neg h, lookupSnap.eq_def]
        simp only [if_neg (fun hh : k = m => h hh.symm)]
    · simp only [setSnap, if_neg hk, lookupSnap]
      by_cases hkm : k = m
      · subst hkm
        rw [if_pos rfl, if_neg (fun hh : k = n => hk hh), lookupSnap.eq_def]
        simp
      · rw [if_neg hkm, ih]
        by_cases hmn : m = n
        · simp [hmn]
        · rw [if_neg hmn, if_neg hmn, lookupSnap.eq_def]
          simp only [if_neg hkm]

theorem append_txt_inj (m n : String) (h : m ++ ".txt" = n ++ ".txt") : m = n := by
  have hd := congrArg String.data h
  rw [data_append_txt, data_append_txt] at hd
  exact string_ext (List.append_cancel_right hd)

/-- The snapshot text stored at `النتائج/{name}.txt` in a directory listing. -/
def snapAt (es : Entries) (name : String) : Option String :=
  match lookupEntry es resName with
  | some (.dir l) =>
    match lookupEntry l (name ++ ".txt") with
    | some (.file c) => some c
    | _ => none
  | _ => none

theorem lookupEntry_contToEntries (l : Snaps) (n : String) :
    lookupEntry (contToEntries l) (n ++ ".txt") = (lookupSnap l n).map Entry.file := by
  induction l with
  | nil => simp [contToEntries, lookupEntry, lookupSnap]
  | cons p rest ih =>
    obtain ⟨k, v⟩ := p
    by_cases hk : k = n
    · subst hk
      simp [contToEntries, lookupEntry, lookupSnap]
    · have hne : k ++ ".txt" ≠ n ++ ".txt" := fun hh => hk (append_txt_inj k n hh)
      simp only [contToEntries, List.map_cons, lookupEntry, lookupSnap, hne, if_false, hk]
      exact ih

theorem lookupEntry_eq_none_of_not_mem (es : Entries) (n : String)
    (h : ∀ e, (n, e) ∉ es) : lookupEntry es n = none := by
  induction es with
  | nil => simp [lookupEntry]
  | cons p rest ih =>
    obtain ⟨m, e⟩ := p
    by_cases hm : m = n
    · subst hm
      exact absurd (List.mem_cons_self _ _) (h e)
    · simp only [lookupEntry, hm, if_false]
      exact ih (fun e' he' => h e' (List.mem_cons_of_mem _ he'))

theorem sizeOf_mem_dir (es : Entries) (name : String) (sub : Entries)
    (h : (name, Entry.dir sub) ∈ es) : sizeOf sub < sizeOf es := by
  induction es with
  | nil => simp at h
  | cons p rest ih =>
    rcases List.mem_cons.mp h with he | he
    · subst he
      simp
      omega
    · have := ih he
      simp
      omega

/-- A directory tree is *synced* for behavior `beh` when every case-suffixed
entry of every directory (the container itself excepted) has a snapshot in
that directory's container holding exactly the serialized fresh result of
the artifact on the case path. -/
def synced (beh : Behavior) (dir : Path) (es : Entries) : Prop :=
  (∀ name e, (name, e) ∈ es → suffix name = caseExt →
     snapAt es name = some (freshResult beh (dir ++ [name]))) ∧
  (∀ name sub, (h : (name, Entry.dir sub) ∈ es) → name ≠ resName →
     synced beh (dir ++ [name]) sub)
termination_by sizeOf es
decreasing_by exact sizeOf_mem_dir es name sub h

theorem synced_iff (beh : Behavior) (dir : Path) (es : Entries) :
    synced beh dir es ↔
      ((∀ name e, (name, e) ∈ es → suffix name = caseExt →
         snapAt es name = some (freshResult beh (dir ++ [name]))) ∧
       (∀ name sub, (name, Entry.dir sub) ∈ es → name ≠ resName →
         synced beh (dir ++ [name]) sub)) := by
  rw [synced]

theorem run_eq (beh : Behavior) (ms : Clock) (dir : Path) (es : Entries) :
    run beh ms dir es = runLoop beh ms dir es es [] [] := rfl

theorem get_snapshot_path_stable (dir : Path) (st : Entries) (name : String)
    (l : Entries) (h : lookupEntry st resName = some (.dir l)) :
    (get_snapshot_path dir st name).2 = st := by
  simp [get_snapshot_path, h]

theorem snapAt_setEntry (st : Entries) (name : String) (e : Entry) (m : String)
    (h : name ≠ resName) : snapAt (setEntry st name e) m = snapAt st m := by
  rw [snapAt, snapAt, lookupEntry_setEntry_other st name resName e h]

theorem snapAt_extract (st : Entries) (name : String) (S : String)
    (h : snapAt st name = some S) :
    ∃ l, lookupEntry st resName = some (.dir l) ∧
      lookupEntry l (name ++ ".txt") = some (.file S) := by
  rw [snapAt] at h
  rcases hres : lookupEntry st resName with _ | e0
  · simp [hres] at h
  · rcases e0 with c | l
    · simp [hres] at h
    · rcases hl : lookupEntry l (name ++ ".txt") with _ | e1
      · simp [hres, hl] at h
      · rcases e1 with c | l2
        · simp only [hres, hl, Option.some.injEq] at h
          exact ⟨l, rfl, by rw [hl, h]⟩
        · simp [hres, hl] at h

theorem runLoop_synced (beh : Behavior) (ms : Clock) : ∀ (N : Nat) (todo : Entries),
    szL todo ≤ N → ∀ (dir : Path) (st : Entries) (bn : List (Path × Bool × Nat))
    (evs : List Event),
    (∀ name e, (name, e) ∈ todo → suffix name = caseExt →
       snapAt st name = some (freshResult beh (dir ++ [name]))) →
    (∀ name sub, (name, Entry.dir sub) ∈ todo → name ≠ resName →
       synced beh (dir ++ [name]) sub) →
    (∀ b ∈ bn, b.2.1 = true) →
    (∀ p ok m, Event.runBench p ok m ∈ evs → ok = true) →
    (runLoop beh ms dir todo st bn evs).err = none ∧
    (∀ p ok m, Event.runBench p ok m ∈ (runLoop beh ms dir todo st bn evs).events →
      ok = true) := by
  intro N
  induction N with
  | zero =>
    intro todo hsz dir st bn evs _ _ hbn hevs
    rw [szL_eq_zero todo (Nat.le_zero.mp hsz), runLoop_nil]
    refine ⟨rfl, ?_⟩
    intro p ok m hmem
    rcases List.mem_append.mp hmem with h | h
    · exact hevs p ok m h
    · obtain ⟨b, hb, he⟩ := List.mem_map.mp h
      simp only [Event.runBench.injEq] at he
      rw [← he.2.1]
      exact hbn b hb
  | succ N ih =>
    intro todo hsz dir st bn evs hcs hch hbn hevs
    rcases todo with _ | ⟨⟨name, e0⟩, rest⟩
    · rw [runLoop_nil]
      refine ⟨rfl, ?_⟩
      intro p ok m hmem
      rcases List.mem_append.mp hmem with h | h
      · exact hevs p ok m h
      · obtain ⟨b, hb, he⟩ := List.mem_map.mp h
        simp only [Event.runBench.injEq] at he
        rw [← he.2.1]
        exact hbn b hb
    · have hcs_rest : ∀ name' e', (name', e') ∈ rest → suffix name' = caseExt →
          snapAt st name' = some (freshResult beh (dir ++ [name'])) :=
        fun n' e' hm hc => hcs n' e' (List.mem_cons_of_mem _ hm) hc
      have hch_rest : ∀ name' sub', (name', Entry.dir sub') ∈ rest → name' ≠ resName →
          synced beh (dir ++ [name']) sub' :=
        fun n' s' hm hn => hch n' s' (List.mem_cons_of_mem _ hm) hn
      rcases e0 with c | sub
      · -- file entry
        have hrest : szL rest ≤ N := by
          simp only [szL] at hsz
          omega
        by_cases hcase : suffix name = caseExt
        · have hsnapst := hcs name (Entry.file c) (List.mem_cons_self _ _) hcase
          obtain ⟨l, hres, hl⟩ := snapAt_extract st name _ hsnapst
          have hst2 := get_snapshot_path_stable dir st name l hres
          have hsnap : snapFileAt (get_snapshot_path dir st name).2 name =
              some (.file (freshResult beh (dir ++ [name]))) := by
            rw [hst2]
            simp [snapFileAt, hres, hl]
          rw [runLoop_file_case_found beh ms dir name c _ rest st bn evs hcase hsnap]
          rw [hst2]
          refine ih rest hrest dir st _ _ hcs_rest hch_rest ?_ ?_
          · intro b hb
            rcases List.mem_append.mp hb with h | h
            · exact hbn b h
            · simp only [List.mem_singleton] at h
              subst h
              simp only [execute_fst]
              exact beq_self_eq_true _
          · intro p ok m hmem
            rcases List.mem_append.mp hmem with h | h
            · exact hevs p ok m h
            · simp only [List.mem_singleton] at h
              exact absurd h (by simp)
        · rw [runLoop_file_nocase beh ms dir name c rest st bn evs hcase]
          exact ih rest hrest dir st bn evs hcs_rest hch_rest hbn hevs
      · -- directory entry
        have hsub : szL sub ≤ N := by
          simp only [szL] at hsz
          omega
        by_cases hname : name = resName
        · subst hname
          rw [runLoop_dir_res]
          refine ih rest ?_ dir st bn evs hcs_rest hch_rest hbn hevs
          simp only [szL] at hsz
          omega
        · have hsynced := (synced_iff beh (dir ++ [name]) sub).mp
            (hch name sub (List.mem_cons_self _ _) hname)
          have hchild := ih sub hsub (dir ++ [name]) sub [] []
            hsynced.1 hsynced.2 (by simp) (by simp)
          rw [runLoop_dir_ok beh ms dir name sub rest st bn evs hname
            ((run_eq beh ms (dir ++ [name]) sub).symm ▸ hchild.1)]
          have hfile : szL ((name, Entry.file "") :: rest) ≤ N := by
            simp only [szL] at hsz ⊢
            omega
          refine ih ((name, Entry.file "") :: rest) hfile dir _ bn _ ?_ ?_ hbn ?_
          · intro n' e' hm hc
            rw [snapAt_setEntry _ _ _ _ hname]
            rcases List.mem_cons.mp hm with he | he
            · have h1 : n' = name := congrArg Prod.fst he
              rw [h1]
              exact hcs name (Entry.dir sub) (List.mem_cons_self _ _) (h1 ▸ hc)
            · exact hcs_rest n' e' he hc
          · intro n' s' hm hn
            rcases List.mem_cons.mp hm with he | he
            · exact absurd he (by simp)
            · exact hch_rest n' s' he hn
          · intro p ok m hmem
            rcases List.mem_append.mp hmem with h | h
            · rcases List.mem_append.mp h with h2 | h2
              · exact hevs p ok m h2
              · simp only [List.mem_singleton] at h2
                exact absurd h2 (by simp)
            · exact hchild.2 p ok m h

theorem not_mem_removeEntry_self (es : Entries) (n : String) (e : Entry) :
    (n, e) ∉ removeEntry es n := by
  induction es with
  | nil => simp [removeEntry]
  | cons p rest ih =>
    obtain ⟨m, e'⟩ := p
    by_cases hm : m = n
    · simpa [removeEntry, hm] using ih
    · simp only [removeEntry, hm, if_false]
      intro hmem
      rcases List.mem_cons.mp hmem with he | he
      · exact hm (congrArg Prod.fst he).symm
      · exact ih he

theorem mem_removeEntry_sub (es : Entries) (n : String) (x : String × Entry)
    (h : x ∈ removeEntry es n) : x ∈ es := by
  induction es with
  | nil => simpa [removeEntry] using h
  | cons p rest ih =>
    obtain ⟨m, e'⟩ := p
    by_cases hm : m = n
    · rw [removeEntry, if_pos hm] at h
      exact List.mem_cons_of_mem _ (ih h)
    · rw [removeEntry, if_neg hm] at h
      rcases List.mem_cons.mp h with he | he
      · exact he ▸ List.mem_cons_self _ _
      · exact List.mem_cons_of_mem _ (ih he)

theorem snapAt_acc_container (acc : Entries) (l : Snaps) (name S : String)
    (h : lookupEntry acc resName = none) (h2 : lookupSnap l name = some S) :
    snapAt (acc ++ [(resName, Entry.dir (contToEntries l))]) name = some S := by
  rw [snapAt, lookupEntry_append, h]
  simp [lookupEntry, lookupEntry_contToEntries, h2]

theorem syncLoop_synced (beh : Behavior) (ms : Clock) : ∀ (N : Nat) (todo : Entries),
    szL todo ≤ N → ∀ (dir : Path) (cont : Option Snaps) (acc : Entries)
    (bn : List (Path × Nat)) (evs : List Event),
    (∀ sub, (resName, Entry.dir sub) ∉ todo) →
    (cont.isSome = true → ∀ e, (resName, e) ∉ acc) →
    (∀ name e, (name, e) ∈ acc → suffix name = caseExt →
       contLookup cont name = some (freshResult beh (dir ++ [name]))) →
    (∀ name sub, (name, Entry.dir sub) ∈ acc → name ≠ resName →
       synced beh (dir ++ [name]) sub) →
    synced beh dir (syncLoop beh ms dir todo cont acc bn evs).fs := by
  intro N
  induction N with
  | zero =>
    intro todo hsz dir cont acc bn evs hnd hanores hacases hadirs
    rw [szL_eq_zero todo (Nat.le_zero.mp hsz), syncLoop_nil]
    rcases cont with _ | l
    · rw [synced_iff]
      constructor
      · intro name e hm hc
        have := hacases name e hm hc
        simp [contLookup] at this
      · exact hadirs
    · rw [synced_iff]
      have hnoresacc : lookupEntry acc resName = none :=
        lookupEntry_eq_none_of_not_mem acc resName (hanores rfl)
      constructor
      · intro name e hm hc
        rcases List.mem_append.mp hm with hmem | hmem
        · have hsn := hacases name e hmem hc
          rw [contLookup] at hsn
          exact snapAt_acc_container acc l name _ hnoresacc hsn
        · simp only [List.mem_singleton] at hmem
          have h1 : name = resName := congrArg Prod.fst hmem
          rw [h1, suffix_resName] at hc
          exact absurd hc (by decide)
      · intro name sub hm hn
        rcases List.mem_append.mp hm with hmem | hmem
        · exact hadirs name sub hmem hn
        · simp only [List.mem_singleton] at hmem
          exact absurd (congrArg Prod.fst hmem) hn
  | succ N ih =>
    intro todo hsz dir cont acc bn evs hnd hanores hacases hadirs
    rcases todo with _ | ⟨⟨name, e0⟩, rest⟩
    · exact ih [] (by simp [szL]) dir cont acc bn evs hnd hanores hacases hadirs
    · have hndr : ∀ sub, (resName, Entry.dir sub) ∉ rest :=
        fun sub hm => hnd sub (List.mem_cons_of_mem _ hm)
      rcases e0 with c | sub
      · -- file entry
        have hrest : szL rest ≤ N := by
          simp only [szL] at hsz
          omega
        by_cases hcase : suffix name = caseExt
        · have hname : name ≠ resName := ne_resName_of_suffix_case name hcase
          rcases cont with _ | l
          · rw [syncLoop_file_case_none beh ms dir name c rest acc bn evs hcase]
            refine ih rest hrest dir _ _ _ _ hndr ?_ ?_ ?_
            · intro _ e hm
              exact not_mem_removeEntry_self _ _ e hm
            · intro m e hm hc
              have hm2 := mem_removeEntry_sub _ _ _ hm
              rcases List.mem_append.mp hm2 with hmem | hmem
              · have := hacases m e hmem hc
                simp [contLookup] at this
              · simp only [List.mem_singleton] at hmem
                have h1 : m = name := congrArg Prod.fst hmem
                rw [contLookup, h1, execute_fst, lookupSnap, if_pos rfl]
            · intro m s hm hn
              have hm2 := mem_removeEntry_sub _ _ _ hm
              rcases List.mem_append.mp hm2 with hmem | hmem
              · exact hadirs m s hmem hn
              · simp only [List.mem_singleton] at hmem
                exact absurd (congrArg Prod.snd hmem) (by simp)
          · rw [syncLoop_file_case_some beh ms dir name c rest l acc bn evs hcase]
            refine ih rest hrest dir _ _ _ _ hndr ?_ ?_ ?_
            · intro _ e hm
              rcases List.mem_append.mp hm with hmem | hmem
              · exact hanores rfl e hmem
              · simp only [List.mem_singleton] at hmem
                exact hname (congrArg Prod.fst hmem).symm
            · intro m e hm hc
              rw [contLookup, lookupSnap_setSnap]
              rcases List.mem_append.mp hm with hmem | hmem
              · by_cases hmn : m = name
                · rw [if_pos hmn, hmn, execute_fst]
                · rw [if_neg hmn]
                  have := hacases m e hmem hc
                  rwa [contLookup] at this
              · simp only [List.mem_singleton] at hmem
                have h1 : m = name := congrArg Prod.fst hmem
                rw [if_pos h1, h1, execute_fst]
            · intro m s hm hn
              rcases List.mem_append.mp hm with hmem | hmem
              · exact hadirs m s hmem hn
              · simp only [List.mem_singleton] at hmem
                exact absurd (congrArg Prod.snd hmem) (by simp)
        · by_cases hedge : name = resName ∧ cont.isSome
          · obtain ⟨rfl, hcs⟩ := hedge
            rcases cont with _ | l
            · simp at hcs
            · rw [syncLoop_file_edge beh ms dir c rest l acc bn evs]
              exact ih rest hrest dir _ acc bn _ hndr hanores hacases hadirs
          · rw [syncLoop_file_plain beh ms dir name c rest cont acc bn evs hedge hcase]
            refine ih rest hrest dir cont _ bn evs hndr ?_ ?_ ?_
            · intro hcs e hm
              rcases List.mem_append.mp hm with hmem | hmem
              · exact hanores hcs e hmem
              · simp only [List.mem_singleton] at hmem
                exact hedge ⟨(congrArg Prod.fst hmem).symm, hcs⟩
            · intro m e hm hc
              rcases List.mem_append.mp hm with hmem | hmem
              · exact hacases m e hmem hc
              · simp only [List.mem_singleton] at hmem
                have h1 : m = name := congrArg Prod.fst hmem
                rw [h1] at hc
                exact absurd hc hcase
            · intro m s hm hn
              rcases List.mem_append.mp hm with hmem | hmem
              · exact hadirs m s hmem hn
              · simp only [List.mem_singleton] at hmem
                exact absurd (congrArg Prod.snd hmem) (by simp)
      · -- directory entry
        have hname : name ≠ resName := by
          intro hh
          exact hnd sub (hh ▸ List.mem_cons_self _ _)
        have hsub : szL sub ≤ N := by
          simp only [szL] at hsz
          omega
        have hrest : szL rest ≤ N := by
          simp only [szL] at hsz
          omega
        have hchild : synced beh (dir ++ [name]) (sync beh ms (dir ++ [name]) sub).fs := by
          rw [sync]
          exact ih (clean (dir ++ [name]) sub).1
            (Nat.le_trans (szL_clean_le _ _) hsub) (dir ++ [name]) none [] [] _
            (clean_no_top_resdir _ _) (by simp) (by simp) (by simp)
        by_cases hcase : suffix name = caseExt
        · rcases cont with _ | l
          · rw [syncLoop_dir_case_none beh ms dir name sub rest acc bn evs hcase]
            refine ih rest hrest dir _ _ _ _ hndr ?_ ?_ ?_
            · intro _ e hm
              exact not_mem_removeEntry_self _ _ e hm
            · intro m e hm hc
              have hm2 := mem_removeEntry_sub _ _ _ hm
              rcases List.mem_append.mp hm2 with hmem | hmem
              · have := hacases m e hmem hc
                simp [contLookup] at this
              · simp only [List.mem_singleton] at hmem
                have h1 : m = name := congrArg Prod.fst hmem
                rw [contLookup, h1, execute_fst, lookupSnap, if_pos rfl]
            · intro m s hm hn
              have hm2 := mem_removeEntry_sub _ _ _ hm
              rcases List.mem_append.mp hm2 with hmem | hmem
              · exact hadirs m s hmem hn
              · simp only [List.mem_singleton] at hmem
                have h1 : m = name := congrArg Prod.fst hmem
                have h2 := congrArg Prod.snd hmem
                simp only [Entry.dir.injEq] at h2
                rw [h1, h2]
                exact hchild
          · rw [syncLoop_dir_case_some beh ms dir name sub rest l acc bn evs hcase]
            refine ih rest hrest dir _ _ _ _ hndr ?_ ?_ ?_
            · intro _ e hm
              rcases List.mem_append.mp hm with hmem | hmem
              · exact hanores rfl e hmem
              · simp only [List.mem_singleton] at hmem
                exact hname (congrArg Prod.fst hmem).symm
            · intro m e hm hc
              rw [contLookup, lookupSnap_setSnap]
              rcases List.mem_append.mp hm with hmem | hmem
              · by_cases hmn : m = name
                · rw [if_pos hmn, hmn, execute_fst]
                · rw [if_neg hmn]
                  have := hacases m e hmem hc
                  rwa [contLookup] at this
              · simp only [List.mem_singleton] at hmem
                have h1 : m = name := congrArg Prod.fst hmem
                rw [if_pos h1, h1, execute_fst]
            · intro m s hm hn
              rcases List.mem_append.mp hm with hmem | hmem
              · exact hadirs m s hmem hn
              · simp only [List.mem_singleton] at hmem
                have h1 : m = name := congrArg Prod.fst hmem
                have h2 := congrArg Prod.snd hmem
                simp only [Entry.dir.injEq] at h2
                rw [h1, h2]
                exact hchild
        · rw [syncLoop_dir_nocase beh ms dir name sub rest cont acc bn evs hcase]
          refine ih rest hrest dir cont _ bn _ hndr ?_ ?_ ?_
          · intro hcs e hm
            rcases List.mem_append.mp hm with hmem | hmem
            · exact hanores hcs e hmem
            · simp only [List.mem_singleton] at hmem
              exact hname (congrArg Prod.fst hmem).symm
          · intro m e hm hc
            rcases List.mem_append.mp hm with hmem | hmem
            · exact hacases m e hmem hc
            · simp only [List.mem_singleton] at hmem
              have h1 : m = name := congrArg Prod.fst hmem
              rw [h1] at hc
              exact absurd hc hcase
          · intro m s hm hn
            rcases List.mem_append.mp hm with hmem | hmem
            · exact hadirs m s hmem hn
            · simp only [List.mem_singleton] at hmem
              have h1 : m = name := congrArg Prod.fst hmem
              have h2 := congrArg Prod.snd hmem
              simp only [Entry.dir.injEq] at h2
              rw [h1, h2]
              exact hchild

/-- `sync` leaves every directory of its result synced: each case-suffixed
entry has a fresh snapshot in its directory's container. -/
theorem sync_synced (beh : Behavior) (ms : Clock) (dir : Path) (es : Entries) :
    synced beh dir (sync beh ms dir es).fs := by
  rw [sync]
  exact syncLoop_synced beh ms (szL (clean dir es).1) (clean dir es).1 (Nat.le_refl _)
    dir none [] [] _ (clean_no_top_resdir _ _) (by simp) (by simp) (by simp)

/-- Claim C4: running `sync` and then immediately `run` over the same tree,
with the artifact behaving identically (the same `beh` in both passes — the
clocks may differ, timing is excluded from the comparison), yields zero
mismatches: `run` completes without a missing-snapshot error and every
per-case report line is marked passed, i.e. every case read back during
`run` compares equal to its freshly written snapshot. -/
theorem c4_sync_then_run (beh : Behavior) (ms₁ ms₂ : Clock) (dir : Path) (es : Entries) :
    (run beh ms₂ dir (sync beh ms₁ dir es).fs).err = none ∧
    (∀ p ok m, Event.runBench p ok m ∈ (run beh ms₂ dir (sync beh ms₁ dir es).fs).events →
      ok = true) := by
  have hs := (synced_iff beh dir (sync beh ms₁ dir es).fs).mp (sync_synced beh ms₁ dir es)
  rw [run_eq]
  exact runLoop_synced beh ms₂ (szL (sync beh ms₁ dir es).fs) _ (Nat.le_refl _) dir _ [] []
    hs.1 hs.2 (by simp) (by simp)

/-! ### Event monotonicity and processing lemmas (claim C10) -/

theorem runLoop_events_mono (beh : Behavior) (ms : Clock) : ∀ (N : Nat) (todo : Entries),
    szL todo ≤ N → ∀ (dir : Path) (st : Entries) (bn : List (Path × Bool × Nat))
    (evs : List Event) (e : Event), e ∈ evs →
    e ∈ (runLoop beh ms dir todo st bn evs).events := by
  intro N
  induction N with
  | zero =>
    intro todo hsz dir st bn evs e he
    rw [szL_eq_zero todo (Nat.le_zero.mp hsz), runLoop_nil]
    exact List.mem_append_left _ he
  | succ N ih =>
    intro todo hsz dir st bn evs e he
    rcases todo with _ | ⟨⟨name, e0⟩, rest⟩
    · rw [runLoop_nil]
      exact List.mem_append_left _ he
    · rcases e0 with c | sub
      · have hrest : szL rest ≤ N := by
          simp only [szL] at hsz
          omega
        by_cases hcase : suffix name = caseExt
        · rcases hsnap : snapFileAt (get_snapshot_path dir st name).2 name with _ | e1
          · rw [runLoop_file_case_missing beh ms dir name c rest st bn evs hcase hsnap]
            exact he
          · rcases e1 with snap | l
            · rw [runLoop_file_case_found beh ms dir name c snap rest st bn evs hcase hsnap]
              exact ih rest hrest dir _ _ _ e
                (List.mem_append_left _ he)
            · rw [runLoop_file_case_snapdir beh ms dir name c l rest st bn evs hcase hsnap]
              exact List.mem_append_left _ (List.mem_append_left _ he)
        · rw [runLoop_file_nocase beh ms dir name c rest st bn evs hcase]
          exact ih rest hrest dir st bn evs e he
      · have hrest : szL rest ≤ N := by
          simp only [szL] at hsz
          omega
        have hfile : szL ((name, Entry.file "") :: rest) ≤ N := by
          simp only [szL] at hsz ⊢
          omega
        by_cases hname : name = resName
        · subst hname
          rw [runLoop_dir_res]
          exact ih rest hrest dir st bn evs e he
        · rcases herr : (run beh ms (dir ++ [name]) sub).err with _ | m
          · rw [runLoop_dir_ok beh ms dir name sub rest st bn evs hname herr]
            exact ih ((name, Entry.file "") :: rest) hfile dir _ bn _ e
              (List.mem_append_left _ (List.mem_append_left _ he))
          · rw [runLoop_dir_err beh ms dir name sub rest st bn evs hname m herr]
            exact List.mem_append_left _ (List.mem_append_left _ he)

theorem syncLoop_events_mono (beh : Behavior) (ms : Clock) : ∀ (N : Nat) (todo : Entries),
    szL todo ≤ N → ∀ (dir : Path) (cont : Option Snaps) (acc : Entries)
    (bn : List (Path × Nat)) (evs : List Event) (e : Event), e ∈ evs →
    e ∈ (syncLoop beh ms dir todo cont acc bn evs).events := by
  intro N
  induction N with
  | zero =>
    intro todo hsz dir cont acc bn evs e he
    rw [szL_eq_zero todo (Nat.le_zero.mp hsz), syncLoop_nil]
    exact List.mem_append_left _ he
  | succ N ih =>
    intro todo hsz dir cont acc bn evs e he
    rcases todo with _ | ⟨⟨name, e0⟩, rest⟩
    · rw [syncLoop_nil]
      exact List.mem_append_left _ he
    · have hrest : szL rest ≤ N := by
        rcases e0 <;> simp only [szL] at hsz <;> omega
      rcases e0 with c | sub
      · by_cases hcase : suffix name = caseExt
        · rcases cont with _ | l
          · rw [syncLoop_file_case_none beh ms dir name c rest acc bn evs hcase]
            exact ih rest hrest dir _ _ _ _ e (List.mem_append_left _ he)
          · rw [syncLoop_file_case_some beh ms dir name c rest l acc bn evs hcase]
            exact ih rest hrest dir _ _ _ _ e (List.mem_append_left _ he)
        · by_cases hedge : name = resName ∧ cont.isSome
          · obtain ⟨rfl, hcs⟩ := hedge
            rcases cont with _ | l
            · simp at hcs
            · rw [syncLoop_file_edge beh ms dir c rest l acc bn evs]
              exact ih rest hrest dir _ _ _ _ e
                (List.mem_append_left _ (List.mem_append_left _ he))
          · rw [syncLoop_file_plain beh ms dir name c rest cont acc bn evs hedge hcase]
            exact ih rest hrest dir cont _ bn evs e he
      · by_cases hcase : suffix name = caseExt
        · rcases cont with _ | l
          · rw [syncLoop_dir_case_none beh ms dir name sub rest acc bn evs hcase]
            exact ih rest hrest dir _ _ _ _ e
              (List.mem_append_left _ (List.mem_append_left _
                (List.mem_append_left _ he)))
          · rw [syncLoop_dir_case_some beh ms dir name sub rest l acc bn evs hcase]
            exact ih rest hrest dir _ _ _ _ e
              (List.mem_append_left _ (List.mem_append_left _
                (List.mem_append_left _ he)))
        · rw [syncLoop_dir_nocase beh ms dir name sub rest cont acc bn evs hcase]
          exact ih rest hrest dir cont _ bn _ e
            (List.mem_append_left _ (List.mem_append_left _ he))

theorem mem_removeEntry_of_ne (es : Entries) (n : String) (x : String × Entry)
    (hx : x ∈ es) (hne : x.1 ≠ n) : x ∈ removeEntry es n := by
  induction es with
  | nil => simpa [removeEntry] using hx
  | cons p rest ih =>
    obtain ⟨m, e'⟩ := p
    rcases List.mem_cons.mp hx with he | he
    · have hm : m ≠ n := by
        intro hh
        exact hne (by rw [he]; exact hh)
      rw [removeEntry, if_neg hm]
      exact he ▸ List.mem_cons_self _ _
    · by_cases hm : m = n
      · rw [removeEntry, if_pos hm]
        exact ih he
      · rw [removeEntry, if_neg hm]
        exact List.mem_cons_of_mem _ (ih he)

theorem syncLoop_dir_case_processed (beh : Behavior) (ms : Clock) : ∀ (N : Nat)
    (todo : Entries), szL todo ≤ N → ∀ (dir : Path) (cont : Option Snaps) (acc : Entries)
    (bn : List (Path × Nat)) (evs : List Event) (name : String) (sub : Entries),
    (name, Entry.dir sub) ∈ todo → suffix name = caseExt →
    Event.recurseE (dir ++ [name]) ∈ (syncLoop beh ms dir todo cont acc bn evs).events ∧
    Event.execE (dir ++ [name]) ∈ (syncLoop beh ms dir todo cont acc bn evs).events := by
  intro N
  induction N with
  | zero =>
    intro todo hsz dir cont acc bn evs name sub hmem hcase
    rw [szL_eq_zero todo (Nat.le_zero.mp hsz)] at hmem
    simp at hmem
  | succ N ih =>
    intro todo hsz dir cont acc bn evs name sub hmem hcase
    rcases todo with _ | ⟨⟨n0, e0⟩, rest⟩
    · simp at hmem
    · have hrest : szL rest ≤ N := by
        rcases e0 <;> simp only [szL] at hsz <;> omega
      rcases List.mem_cons.mp hmem with hhead | htail
      · -- our entry is the head
        cases hhead
        rcases cont with _ | l
        · rw [syncLoop_dir_case_none beh ms dir name sub rest acc bn evs hcase]
          constructor
          · exact syncLoop_events_mono beh ms N rest hrest dir _ _ _ _ _ (by simp)
          · exact syncLoop_events_mono beh ms N rest hrest dir _ _ _ _ _ (by simp)
        · rw [syncLoop_dir_case_some beh ms dir name sub rest l acc bn evs hcase]
          constructor
          · exact syncLoop_events_mono beh ms N rest hrest dir _ _ _ _ _ (by simp)
          · exact syncLoop_events_mono beh ms N rest hrest dir _ _ _ _ _ (by simp)
      · -- our entry is in the tail
        rcases e0 with c | sub0
        · by_cases hc0 : suffix n0 = caseExt
          · rcases cont with _ | l
            · rw [syncLoop_file_case_none beh ms dir n0 c rest acc bn evs hc0]
              exact ih rest hrest dir _ _ _ _ name sub htail hcase
            · rw [syncLoop_file_case_some beh ms dir n0 c rest l acc bn evs hc0]
              exact ih rest hrest dir _ _ _ _ name sub htail hcase
          · by_cases hedge : n0 = resName ∧ cont.isSome
            · obtain ⟨rfl, hcs⟩ := hedge
              rcases cont with _ | l
              · simp at hcs
              · rw [syncLoop_file_edge beh ms dir c rest l acc bn evs]
                exact ih rest hrest dir _ _ _ _ name sub htail hcase
            · rw [syncLoop_file_plain beh ms dir n0 c rest cont acc bn evs hedge hc0]
              exact ih rest hrest dir cont _ bn evs name sub htail hcase
        · by_cases hc0 : suffix n0 = caseExt
          · rcases cont with _ | l
            · rw [syncLoop_dir_case_none beh ms dir n0 sub0 rest acc bn evs hc0]
              exact ih rest hrest dir _ _ _ _ name sub htail hcase
            · rw [syncLoop_dir_case_some beh ms dir n0 sub0 rest l acc bn evs hc0]
              exact ih rest hrest dir _ _ _ _ name sub htail hcase
          · rw [syncLoop_dir_nocase beh ms dir n0 sub0 rest cont acc bn evs hc0]
            exact ih rest hrest dir cont _ bn _ name sub htail hcase

theorem runLoop_dir_case_processed (beh : Behavior) (ms : Clock) : ∀ (N : Nat)
    (todo : Entries), szL todo ≤ N → ∀ (dir : Path) (st : Entries)
    (bn : List (Path × Bool × Nat)) (evs : List Event) (name : String) (sub : Entries),
    (name, Entry.dir sub) ∈ todo → suffix name = caseExt →
    (runLoop beh ms dir todo st bn evs).err = none →
    (∀ s, Event.errLine s ∉ (runLoop beh ms dir todo st bn evs).events) →
    Event.recurseE (dir ++ [name]) ∈ (runLoop beh ms dir todo st bn evs).events ∧
    Event.execE (dir ++ [name]) ∈ (runLoop beh ms dir todo st bn evs).events := by
  intro N
  induction N with
  | zero =>
    intro todo hsz dir st bn evs name sub hmem
    rw [szL_eq_zero todo (Nat.le_zero.mp hsz)] at hmem
    simp at hmem
  | succ N ih =>
    intro todo hsz dir st bn evs name sub hmem hcase herr hnoerr
    rcases todo with _ | ⟨⟨n0, e0⟩, rest⟩
    · simp at hmem
    · have hrest : szL rest ≤ N := by
        rcases e0 <;> simp only [szL] at hsz <;> omega
      rcases List.mem_cons.mp hmem with hhead | htail
      · cases hhead
        have hname : name ≠ resName := ne_resName_of_suffix_case name hcase
        rcases herr0 : (run beh ms (dir ++ [name]) sub).err with _ | m
        · rw [runLoop_dir_ok beh ms dir name sub rest st bn evs hname herr0]
            at herr hnoerr ⊢
          rcases hsnap : snapFileAt (get_snapshot_path dir
              (setEntry st name (Entry.dir (run beh ms (dir ++ [name]) sub).fs)) name).2
              name with _ | e1
          · rw [runLoop_file_case_missing beh ms dir name "" rest _ bn _ hcase hsnap]
              at herr
            simp at herr
          · rcases e1 with snap | l
            · rw [runLoop_file_case_found beh ms dir name "" snap rest _ bn _ hcase hsnap]
                at herr hnoerr ⊢
              constructor
              · exact runLoop_events_mono beh ms (szL rest) rest (Nat.le_refl _)
                  dir _ _ _ _ (by simp)
              · exact runLoop_events_mono beh ms (szL rest) rest (Nat.le_refl _)
                  dir _ _ _ _ (by simp)
            · rw [runLoop_file_case_snapdir beh ms dir name "" l rest _ bn _ hcase hsnap]
                at hnoerr
              exact absurd (by simp : Event.errLine (pathJoin (get_snapshot_path dir
                (setEntry st name (Entry.dir (run beh ms (dir ++ [name]) sub).fs))
                name).1) ∈ _) (hnoerr _)
        · rw [runLoop_dir_err beh ms dir name sub rest st bn evs hname m herr0] at herr
          simp at herr
      · rcases e0 with c | sub0
        · by_cases hc0 : suffix n0 = caseExt
          · rcases hsnap : snapFileAt (get_snapshot_path dir st n0).2 n0 with _ | e1
            · rw [runLoop_file_case_missing beh ms dir n0 c rest st bn evs hc0 hsnap]
                at herr
              simp at herr
            · rcases e1 with snap | l
              · rw [runLoop_file_case_found beh ms dir n0 c snap rest st bn evs hc0 hsnap]
                  at herr hnoerr ⊢
                exact ih rest hrest dir _ _ _ name sub htail hcase herr hnoerr
              · rw [runLoop_file_case_snapdir beh ms dir n0 c l rest st bn evs hc0 hsnap]
                  at hnoerr
                exact absurd (by simp : Event.errLine
                  (pathJoin (get_snapshot_path dir st n0).1) ∈ _) (hnoerr _)
          · rw [runLoop_file_nocase beh ms dir n0 c rest st bn evs hc0]
              at herr hnoerr ⊢
            exact ih rest hrest dir st bn evs name sub htail hcase herr hnoerr
        · by_cases hn0 : n0 = resName
          · subst hn0
            rw [runLoop_dir_res] at herr hnoerr ⊢
            exact ih rest hrest dir st bn evs name sub htail hcase herr hnoerr
          · rcases herr0 : (run beh ms (dir ++ [n0]) sub0).err with _ | m
            · rw [runLoop_dir_ok beh ms dir n0 sub0 rest st bn evs hn0 herr0]
                at herr hnoerr ⊢
              have hfile : szL ((n0, Entry.file "") :: rest) ≤ N := by
                simp only [szL] at hsz ⊢
                omega
              exact ih ((n0, Entry.file "") :: rest) hfile dir _ bn _ name sub
                (List.mem_cons_of_mem _ htail) hcase herr hnoerr
            · rw [runLoop_dir_err beh ms dir n0 sub0 rest st bn evs hn0 m herr0] at herr
              simp at herr

theorem syncLoop_fs_mem (beh : Behavior) (ms : Clock) : ∀ (N : Nat) (todo : Entries),
    szL todo ≤ N → ∀ (dir : Path) (cont : Option Snaps) (acc : Entries)
    (bn : List (Path × Nat)) (evs : List Event) (name : String), name ≠ resName →
    ((∃ e, (name, e) ∈ todo) ∨ (∃ e, (name, e) ∈ acc)) →
    ∃ e, (name, e) ∈ (syncLoop beh ms dir todo cont acc bn evs).fs := by
  intro N
  induction N with
  | zero =>
    intro todo hsz dir cont acc bn evs name hname hmem
    rw [szL_eq_zero todo (Nat.le_zero.mp hsz)] at hmem
    rw [szL_eq_zero todo (Nat.le_zero.mp hsz), syncLoop_nil]
    rcases hmem with ⟨e, he⟩ | ⟨e, he⟩
    · simp at he
    · rcases cont with _ | l
      · exact ⟨e, he⟩
      · exact ⟨e, List.mem_append_left _ he⟩
  | succ N ih =>
    intro todo hsz dir cont acc bn evs name hname hmem
    rcases todo with _ | ⟨⟨n0, e0⟩, rest⟩
    · rw [syncLoop_nil]
      rcases hmem with ⟨e, he⟩ | ⟨e, he⟩
      · simp at he
      · rcases cont with _ | l
        · exact ⟨e, he⟩
        · exact ⟨e, List.mem_append_left _ he⟩
    · have hrest : szL rest ≤ N := by
        rcases e0 <;> simp only [szL] at hsz <;> omega
      -- decompose the membership hypothesis
      have hsplit : (n0 = name ∧ True) ∨ (∃ e, (name, e) ∈ rest) ∨ (∃ e, (name, e) ∈ acc) := by
        rcases hmem with ⟨e, he⟩ | ⟨e, he⟩
        · rcases List.mem_cons.mp he with hh | ht
          · exact Or.inl ⟨(congrArg Prod.fst hh).symm, trivial⟩
          · exact Or.inr (Or.inl ⟨e, ht⟩)
        · exact Or.inr (Or.inr ⟨e, he⟩)
      rcases e0 with c | sub
      · by_cases hc0 : suffix n0 = caseExt
        · rcases cont with _ | l
          · rw [syncLoop_file_case_none beh ms dir n0 c rest acc bn evs hc0]
            refine ih rest hrest dir _ _ _ _ name hname ?_
            rcases hsplit with ⟨rfl, _⟩ | ⟨e, he⟩ | ⟨e, he⟩
            · exact Or.inr ⟨Entry.file c, mem_removeEntry_of_ne _ _ _
                (List.mem_append_right _ (by simp)) hname⟩
            · exact Or.inl ⟨e, he⟩
            · exact Or.inr ⟨e, mem_removeEntry_of_ne _ _ _
                (List.mem_append_left _ he) hname⟩
          · rw [syncLoop_file_case_some beh ms dir n0 c rest l acc bn evs hc0]
            refine ih rest hrest dir _ _ _ _ name hname ?_
            rcases hsplit with ⟨rfl, _⟩ | ⟨e, he⟩ | ⟨e, he⟩
            · exact Or.inr ⟨Entry.file c, List.mem_append_right _ (by simp)⟩
            · exact Or.inl ⟨e, he⟩
            · exact Or.inr ⟨e, List.mem_append_left _ he⟩
        · by_cases hedge : n0 = resName ∧ cont.isSome
          · obtain ⟨rfl, hcs⟩ := hedge
            rcases cont with _ | l
            · simp at hcs
            · rw [syncLoop_file_edge beh ms dir c rest l acc bn evs]
              refine ih rest hrest dir _ _ _ _ name hname ?_
              rcases hsplit with ⟨hh, _⟩ | ⟨e, he⟩ | ⟨e, he⟩
              · exact absurd hh.symm hname
              · exact Or.inl ⟨e, he⟩
              · exact Or.inr ⟨e, he⟩
          · rw [syncLoop_file_plain beh ms dir n0 c rest cont acc bn evs hedge hc0]
            refine ih rest hrest dir cont _ bn evs name hname ?_
            rcases hsplit with ⟨rfl, _⟩ | ⟨e, he⟩ | ⟨e, he⟩
            · exact Or.inr ⟨Entry.file c, List.mem_append_right _ (by simp)⟩
            · exact Or.inl ⟨e, he⟩
            · exact Or.inr ⟨e, List.mem_append_left _ he⟩
      · by_cases hc0 : suffix n0 = caseExt
        · rcases cont with _ | l
          · rw [syncLoop_dir_case_none beh ms dir n0 sub rest acc bn evs hc0]
            refine ih rest hrest dir _ _ _ _ name hname ?_
            rcases hsplit with ⟨rfl, _⟩ | ⟨e, he⟩ | ⟨e, he⟩
            · exact Or.inr ⟨Entry.dir (sync beh ms (dir ++ [n0]) sub).fs,
                mem_removeEntry_of_ne _ _ _ (List.mem_append_right _ (by simp)) hname⟩
            · exact Or.inl ⟨e, he⟩
            · exact Or.inr ⟨e, mem_removeEntry_of_ne _ _ _
                (List.mem_append_left _ he) hname⟩
          · rw [syncLoop_dir_case_some beh ms dir n0 sub rest l acc bn evs hc0]
            refine ih rest hrest dir _ _ _ _ name hname ?_
            rcases hsplit with ⟨rfl, _⟩ | ⟨e, he⟩ | ⟨e, he⟩
            · exact Or.inr ⟨Entry.dir (sync beh ms (dir ++ [n0]) sub).fs,
                List.mem_append_right _ (by simp)⟩
            · exact Or.inl ⟨e, he⟩
            · exact Or.inr ⟨e, List.mem_append_left _ he⟩
        · rw [syncLoop_dir_nocase beh ms dir n0 sub rest cont acc bn evs hc0]
          refine ih rest hrest dir cont _ bn _ name hname ?_
          rcases hsplit with ⟨rfl, _⟩ | ⟨e, he⟩ | ⟨e, he⟩
          · exact Or.inr ⟨Entry.dir (sync beh ms (dir ++ [n0]) sub).fs,
              List.mem_append_right _ (by simp)⟩
          · exact Or.inl ⟨e, he⟩
          · exact Or.inr ⟨e, List.mem_append_left _ he⟩

theorem clean_mem_dir_intro (dir : Path) (es : Entries) (name : String) (sub : Entries)
    (hmem : (name, Entry.dir sub) ∈ es) (hname : name ≠ resName) :
    (name, Entry.dir (clean (dir ++ [name]) sub).1) ∈ (clean dir es).1 := by
  induction dir, es using clean.induct with
  | case1 => simp at hmem
  | case2 d sub0 rest ih =>
    rcases List.mem_cons.mp hmem with hh | ht
    · exact absurd (congrArg Prod.fst hh) hname
    · simpa [clean] using ih ht
  | case3 d n sub0 rest hn ih1 ih2 =>
    rcases List.mem_cons.mp hmem with hh | ht
    · have h1 : n = name := (congrArg Prod.fst hh).symm
      have h2 : sub0 = sub := by
        have := congrArg Prod.snd hh
        simp only [Entry.dir.injEq] at this
        exact this.symm
      subst h1
      subst h2
      simp [clean, hn]
    · simp only [clean, hn, if_false]
      exact List.mem_cons_of_mem _ (ih2 ht)
  | case4 d n c rest ih =>
    rcases List.mem_cons.mp hmem with hh | ht
    · exact absurd (congrArg Prod.snd hh) (by simp)
    · simp only [clean]
      exact List.mem_cons_of_mem _ (ih ht)

/-- Claim C10: classification as subdirectory and as test case is not
mutually exclusive.  For every listing entry that is a *directory* whose
name carries the test-case extension `.قتام`: `sync` recurses into it and
additionally executes it as a test case, writing a snapshot named after it
into the containing directory's results container; `run` (when it completes
normally — no uncaught error and no caught `OSError` report) recurses into
it and additionally executes it, reading its snapshot. -/
theorem c10_dir_case_dual :
    (∀ (beh : Behavior) (ms : Clock) (dir : Path) (es : Entries) (name : String)
       (sub : Entries), (name, Entry.dir sub) ∈ es → suffix name = caseExt →
       Event.recurseE (dir ++ [name]) ∈ (sync beh ms dir es).events ∧
       Event.execE (dir ++ [name]) ∈ (sync beh ms dir es).events ∧
       snapAt (sync beh ms dir es).fs name = some (freshResult beh (dir ++ [name]))) ∧
    (∀ (beh : Behavior) (ms : Clock) (dir : Path) (es : Entries) (name : String)
       (sub : Entries), (name, Entry.dir sub) ∈ es → suffix name = caseExt →
       (run beh ms dir es).err = none →
       (∀ s, Event.errLine s ∉ (run beh ms dir es).events) →
       Event.recurseE (dir ++ [name]) ∈ (run beh ms dir es).events ∧
       Event.execE (dir ++ [name]) ∈ (run beh ms dir es).events) := by
  constructor
  · intro beh ms dir es name sub hmem hcase
    have hname := ne_resName_of_suffix_case name hcase
    have hmem2 := clean_mem_dir_intro dir es name sub hmem hname
    have hproc := syncLoop_dir_case_processed beh ms (szL (clean dir es).1) _
      (Nat.le_refl _) dir none [] [] (clean dir es).2 name _ hmem2 hcase
    refine ⟨by rw [sync]; exact hproc.1, by rw [sync]; exact hproc.2, ?_⟩
    have hfs : ∃ e', (name, e') ∈ (sync beh ms dir es).fs := by
      rw [sync]
      exact syncLoop_fs_mem beh ms (szL (clean dir es).1) _ (Nat.le_refl _)
        dir none [] [] _ name hname (Or.inl ⟨_, hmem2⟩)
    obtain ⟨e', he'⟩ := hfs
    exact ((synced_iff beh dir _).mp (sync_synced beh ms dir es)).1 name e' he' hcase
  · intro beh ms dir es name sub hmem hcase herr hnoerr
    rw [run_eq] at herr hnoerr ⊢
    exact runLoop_dir_case_processed beh ms (szL es) es (Nat.le_refl _) dir es [] []
      name sub hmem hcase herr hnoerr

/-- Witness for `c10_dir_case_dual` on concrete trees with a directory named
`d.قتام` (a directory that is also a test case). -/
theorem c10_dir_case_dual_witness :
    (Event.recurseE ["t", "d.قتام"] ∈
       (sync behA msA ["t"] [("d.قتام", Entry.dir [])]).events ∧
     Event.execE ["t", "d.قتام"] ∈
       (sync behA msA ["t"] [("d.قتام", Entry.dir [])]).events ∧
     snapAt (sync behA msA ["t"] [("d.قتام", Entry.dir [])]).fs "d.قتام" =
       some (freshResult behA ["t", "d.قتام"])) ∧
    (Event.recurseE ["t", "d.قتام"] ∈
       (run behA msA ["t"] [("d.قتام", Entry.dir []),
         (resName, Entry.dir [("d.قتام.txt", Entry.file "snap")])]).events ∧
     Event.execE ["t", "d.قتام"] ∈
       (run behA msA ["t"] [("d.قتام", Entry.dir []),
         (resName, Entry.dir [("d.قتام.txt", Entry.file "snap")])]).events) := by
  have h1 : run behA msA (["t"] ++ ["d.قتام"]) [] = ⟨[], [], none⟩ := by
    rw [run, runLoop_nil]
    simp
  have hst : setEntry [("d.قتام", Entry.dir []),
      (resName, Entry.dir [("d.قتام.txt", Entry.file "snap")])] "d.قتام" (Entry.dir []) =
      [("d.قتام", Entry.dir []), (resName, Entry.dir [("d.قتام.txt", Entry.file "snap")])] := by
    simp [setEntry]
  have hgp : (get_snapshot_path ["t"] [("d.قتام", Entry.dir []),
      (resName, Entry.dir [("d.قتام.txt", Entry.file "snap")])] "d.قتام").2 =
      [("d.قتام", Entry.dir []), (resName, Entry.dir [("d.قتام.txt", Entry.file "snap")])] := by
    simp [get_snapshot_path, lookupEntry, resName]
  have hsnap : snapFileAt (get_snapshot_path ["t"] [("d.قتام", Entry.dir []),
      (resName, Entry.dir [("d.قتام.txt", Entry.file "snap")])] "d.قتام").2 "d.قتام" =
      some (.file "snap") := by
    rw [hgp]
    simp [snapFileAt, lookupEntry, resName]
  have heq : run behA msA ["t"] [("d.قتام", Entry.dir []),
      (resName, Entry.dir [("d.قتام.txt", Entry.file "snap")])] =
      ⟨[("d.قتام", Entry.dir []), (resName, Entry.dir [("d.قتام.txt", Entry.file "snap")])],
       [Event.recurseE ["t", "d.قتام"], Event.execE ["t", "d.قتام"],
        Event.runBench ["t", "d.قتام"] (freshResult behA ["t", "d.قتام"] == "snap") 5],
       none⟩ := by
    rw [run]
    rw [runLoop_dir_ok behA msA ["t"] "d.قتام" [] _ _ [] [] (by decide) (by rw [h1])]
    rw [h1, hst]
    rw [runLoop_file_case_found behA msA ["t"] "d.قتام" "" "snap" _ _ _ _ (by decide) hsnap]
    rw [hgp]
    rw [runLoop_dir_res, runLoop_nil]
    simp [execute_fst, msA]
  refine ⟨?_, ?_⟩
  · have h := c10_dir_case_dual.1 behA msA ["t"] [("d.قتام", Entry.dir [])] "d.قتام" []
      (by simp) (by decide)
    simpa using h
  · have h := c10_dir_case_dual.2 behA msA ["t"]
      [("d.قتام", Entry.dir []), (resName, Entry.dir [("d.قتام.txt", Entry.file "snap")])]
      "d.قتام" [] (by simp) (by decide)
      (by rw [heq]) (by intro s hmem; rw [heq] at hmem; simp at hmem)
    simpa using h

end Qatam
